import Mathlib

/-!
Verification development for the ancestor-matching engine of
`tsinfer/new_inference.py`.

The Python source is shallowly embedded: linked `Segment` chains become
Lean lists of `Seg` records (the `next` pointer is the list tail), numpy
arrays become lists of integers, and the fallible operations return
`Except`.  The real-valued Li-Stephens constants `pr`, `qr`, `pm`, `qm`
computed in `best_path` from `rho`/`theta` via `exp` are taken as rational
parameters, since the transcendental map from `(rho, theta)` to them is
irrelevant to the control flow being verified; everything downstream of
those constants is embedded exactly.
-/

/-- One run of a run-length-encoded chain: the half-open interval
`[start, stop)` of ancestor indices carrying `value`.  Mirrors the Python
`Segment` class (`next` is represented by list structure). -/
structure Seg (α : Type) where
  start : ℤ
  stop : ℤ
  value : α
deriving DecidableEq, Repr

/-- A chain contiguously covers `[lo, hi)`: runs link up exactly, each run
is nonempty, the first starts at `lo` and the last stops at `hi`.  This is
the data-model invariant of the spec (proof-side predicate). -/
def covFromB (lo hi : ℤ) : List (Seg α) → Bool
  | [] => lo == hi
  | u :: rest => u.start == lo && decide (u.start < u.stop) && covFromB u.stop hi rest

/-- The internal-consistency check of `best_path` (source lines 336-340)
and `decode_ancestors` (lines 373-380): head starts at `lo`, consecutive
runs link, last run stops at `hi`.  Unlike `covFromB` it does not require
runs to be nonempty, exactly as the Python asserts do not. -/
def chainCover (lo hi : ℤ) : List (Seg α) → Bool
  | [] => false
  | [u] => u.start == lo && u.stop == hi
  | u :: v :: rest => u.start == lo && u.stop == v.start && chainCover v.start hi (v :: rest)

/-- The pair of asserts at the top of each `best_path` iteration (source
lines 253-254): `V_head.start == 0` and `V_tail.end == num_ancestors`. -/
def chainEnds (lo hi : ℤ) (c : List (Seg α)) : Bool :=
  match c.head?, c.getLast? with
  | some a, some b => a.start == lo && b.stop == hi
  | _, _ => false

/-- Append a value at the domain edge `x` of a chain: extend the last run
when its value matches, otherwise append a unit run.  This is the body of
the per-site loop of `AncestorMatcher.add` (source lines 167-174). -/
def addSeg [DecidableEq α] (x : ℤ) (v : α) (c : List (Seg α)) : List (Seg α) :=
  match c.getLast? with
  | some t =>
    if t.stop = x ∧ t.value = v then
      c.dropLast ++ [⟨t.start, t.stop + 1, t.value⟩]
    else
      c ++ [⟨x, x + 1, v⟩]
  | none => [⟨x, x + 1, v⟩]

/-- Errors surfaced by the matcher: the shape assert of `add`/`best_path`,
the `IndexError` of the `start_site` scan on an all-unknown query, and the
internal chain-coverage asserts of the forward pass. -/
inductive MatchError where
  | shapeMismatch
  | emptyQuery
  | invariantViolation
deriving DecidableEq, Repr

/-- The ancestor library: per-site run-length-encoded chains
(`sites_head` in the source; tails are the last list elements). -/
structure AncestorMatcher where
  num_sites : ℕ
  num_ancestors : ℕ
  sites : List (List (Seg ℤ))
deriving DecidableEq, Repr

/-- `AncestorMatcher.__init__`: one all-zero implicit ancestor. -/
def AncestorMatcher.init (m : ℕ) : AncestorMatcher :=
  { num_sites := m
    num_ancestors := 1
    sites := List.replicate m [⟨0, 1, 0⟩] }

/-- `AncestorMatcher.add`: the shape assert, then per-site chain append,
then the ancestor-count increment. -/
def AncestorMatcher.add (s : AncestorMatcher) (h : List ℤ) :
    Except MatchError AncestorMatcher :=
  if h.length = s.num_sites then
    .ok { num_sites := s.num_sites
          num_ancestors := s.num_ancestors + 1
          sites := List.zipWith (fun c v => addSeg (s.num_ancestors : ℤ) v c) s.sites h }
  else .error .shapeMismatch

/-- Sequential `add` calls. -/
def addAll (s : AncestorMatcher) (hs : List (List ℤ)) :
    Except MatchError AncestorMatcher :=
  hs.foldlM AncestorMatcher.add s

/-- Library-state well-formedness: one chain per site, at least the
implicit ancestor, every chain contiguously covering
`[0, num_ancestors)`. -/
def wfM (s : AncestorMatcher) : Bool :=
  s.sites.length == s.num_sites && decide (0 < s.num_ancestors) &&
    s.sites.all (fun c => covFromB 0 (s.num_ancestors : ℤ) c)

theorem covFromB_append_single {lo : ℤ} (u : Seg α) :
    ∀ (c : List (Seg α)), covFromB lo u.start c = true → u.start < u.stop →
      covFromB lo u.stop (c ++ [u]) = true := by
  intro c
  induction c generalizing lo with
  | nil =>
    intro hc hu
    simp only [covFromB, beq_iff_eq] at hc
    subst hc
    simp [covFromB, hu]
  | cons a rest ih =>
    intro hc hu
    simp only [covFromB, Bool.and_eq_true, beq_iff_eq, decide_eq_true_eq] at hc
    simp only [List.cons_append, covFromB, Bool.and_eq_true, beq_iff_eq,
      decide_eq_true_eq]
    exact ⟨⟨hc.1.1, hc.1.2⟩, ih hc.2 hu⟩

theorem covFromB_getLast {lo hi : ℤ} :
    ∀ (c : List (Seg α)) (t : Seg α), covFromB lo hi c = true →
      c.getLast? = some t → t.stop = hi := by
  intro c
  induction c generalizing lo with
  | nil => intro t _ hl; simp at hl
  | cons a rest ih =>
    intro t hc hl
    simp only [covFromB, Bool.and_eq_true, beq_iff_eq, decide_eq_true_eq] at hc
    match rest, hl with
    | [], hl =>
      simp only [List.getLast?_singleton, Option.some.injEq] at hl
      subst hl
      simpa [covFromB] using hc.2
    | b :: rest', hl =>
      have : (b :: rest').getLast? = some t := by
        rw [List.getLast?_cons_cons] at hl
        exact hl
      exact ih t hc.2 this

theorem covFromB_dropLast {lo hi : ℤ} :
    ∀ (c : List (Seg α)) (t : Seg α), covFromB lo hi c = true →
      c.getLast? = some t → covFromB lo t.start c.dropLast = true := by
  intro c
  induction c generalizing lo with
  | nil => intro t _ hl; simp at hl
  | cons a rest ih =>
    intro t hc hl
    simp only [covFromB, Bool.and_eq_true, beq_iff_eq, decide_eq_true_eq] at hc
    match rest, hl with
    | [], hl =>
      simp only [List.getLast?_singleton, Option.some.injEq] at hl
      subst hl
      simpa [covFromB] using hc.1.1.symm
    | b :: rest', hl =>
      have hl' : (b :: rest').getLast? = some t := by
        rw [List.getLast?_cons_cons] at hl
        exact hl
      have := ih t hc.2 hl'
      simp only [List.dropLast_cons_of_ne_nil (by simp : b :: rest' ≠ []), covFromB,
        Bool.and_eq_true, beq_iff_eq, decide_eq_true_eq]
      exact ⟨⟨hc.1.1, hc.1.2⟩, this⟩

theorem covFromB_mem_lt {x lo : ℤ} :
    ∀ (c : List (Seg α)) (t : Seg α), covFromB lo x c = true → t ∈ c →
      t.start < t.stop := by
  intro c
  induction c generalizing lo with
  | nil => intro t _ hm; simp at hm
  | cons a rest ih =>
    intro t hcov hm
    simp only [covFromB, Bool.and_eq_true, beq_iff_eq, decide_eq_true_eq] at hcov
    rcases List.mem_cons.mp hm with rfl | hm'
    · exact hcov.1.2
    · exact ih t hcov.2 hm'

theorem addSeg_cov {x : ℤ} {v : ℤ} {c : List (Seg ℤ)} (hx : 0 < x)
    (hc : covFromB 0 x c = true) : covFromB 0 (x + 1) (addSeg x v c) = true := by
  unfold addSeg
  rcases hl : c.getLast? with _ | t
  · exfalso
    have : c = [] := List.getLast?_eq_none_iff.mp hl
    subst this
    simp only [covFromB, beq_iff_eq] at hc
    omega
  · have hstop : t.stop = x := covFromB_getLast c t hc hl
    have hmem : t ∈ c := by
      obtain ⟨hne', heq⟩ := List.mem_getLast?_eq_getLast (l := c) (x := t)
        (by simp [Option.mem_def, hl])
      rw [heq]
      exact List.getLast_mem hne'
    have htlt : t.start < t.stop := covFromB_mem_lt c t hc hmem
    show covFromB 0 (x + 1)
      (if t.stop = x ∧ t.value = v then
        c.dropLast ++ [⟨t.start, t.stop + 1, t.value⟩]
      else c ++ [⟨x, x + 1, v⟩]) = true
    by_cases hv : t.stop = x ∧ t.value = v
    · rw [if_pos hv]
      have h1 : covFromB 0 t.start c.dropLast = true := covFromB_dropLast c t hc hl
      have h2 := covFromB_append_single (⟨t.start, t.stop + 1, t.value⟩ : Seg ℤ)
        c.dropLast h1 (by show t.start < t.stop + 1; omega)
      rw [← hstop]
      exact h2
    · rw [if_neg hv]
      exact covFromB_append_single (⟨x, x + 1, v⟩ : Seg ℤ) c hc
        (by show x < x + 1; omega)

/-- C10 -- Appending a value equal to the last run's value via `add` does
not increase the run count (the last run's end is extended by 1);
appending a different value adds exactly one unit-length run. -/
theorem C10_append_compression (x : ℤ) (w : ℤ) (c : List (Seg ℤ)) (t : Seg ℤ)
    (hlast : c.getLast? = some t) (hstop : t.stop = x) :
    (t.value = w →
      (addSeg x w c).length = c.length ∧
      addSeg x w c = c.dropLast ++ [⟨t.start, x + 1, t.value⟩]) ∧
    (t.value ≠ w →
      (addSeg x w c).length = c.length + 1 ∧
      addSeg x w c = c ++ [⟨x, x + 1, w⟩]) := by
  have hne : c ≠ [] := by
    intro hcnil; rw [hcnil] at hlast; simp at hlast
  constructor
  · intro hv
    have : addSeg x w c = c.dropLast ++ [⟨t.start, t.stop + 1, t.value⟩] := by
      unfold addSeg
      rw [hlast]
      simp [hstop, hv]
    rw [hstop] at this
    refine ⟨?_, this⟩
    rw [this]
    simp only [List.length_append, List.length_dropLast, List.length_singleton]
    have : 0 < c.length := List.length_pos.mpr hne
    omega
  · intro hv
    have : addSeg x w c = c ++ [⟨x, x + 1, w⟩] := by
      unfold addSeg
      rw [hlast]
      have : ¬(t.stop = x ∧ t.value = w) := by
        intro h; exact hv h.2
      simp [this]
    refine ⟨?_, this⟩
    rw [this]
    simp

/-- C8 (amended) -- `add` surfaces shape violations immediately as hard
failures with no partial result; values outside `{0,1}` are not validated
and are appended as-is, so only the shape check can fail. -/
theorem C8_add_error_handling (s : AncestorMatcher) (h : List ℤ) :
    (h.length ≠ s.num_sites → AncestorMatcher.add s h = .error .shapeMismatch) ∧
    (h.length = s.num_sites → ∃ s', AncestorMatcher.add s h = .ok s') := by
  constructor
  · intro hl
    simp [AncestorMatcher.add, hl]
  · intro hl
    refine ⟨{ num_sites := s.num_sites, num_ancestors := s.num_ancestors + 1,
              sites := List.zipWith (fun c v => addSeg (s.num_ancestors : ℤ) v c) s.sites h },
            ?_⟩
    simp only [AncestorMatcher.add, hl, if_true]

theorem C8_witness :
    (AncestorMatcher.add (AncestorMatcher.init 2) [9] = .error .shapeMismatch) ∧
    (∃ s', AncestorMatcher.add (AncestorMatcher.init 1) [5] = .ok s') :=
  ⟨(C8_add_error_handling (AncestorMatcher.init 2) [9]).1 (by decide),
   (C8_add_error_handling (AncestorMatcher.init 1) [5]).2 (by decide)⟩

/-- C8 counterexample -- adding a haplotype containing the out-of-domain
value 7 raises no failure: it succeeds and stores 7 in the library, so
input-domain violations are not surfaced to the caller. -/
theorem C8_counterexample :
    AncestorMatcher.add (AncestorMatcher.init 1) [7] =
      .ok ⟨1, 2, [[⟨0, 1, 0⟩, ⟨1, 2, 7⟩]]⟩ ∧ (7 : ℤ) ≠ 0 ∧ (7 : ℤ) ≠ 1 := by
  refine ⟨?_, by decide, by decide⟩
  rfl

theorem C10_witness :
    ([⟨0, 2, 5⟩] : List (Seg ℤ)).getLast? = some ⟨0, 2, 5⟩ ∧ (2 : ℤ) = 2 ∧
    ((5 : ℤ) = 5 →
      (addSeg 2 5 [⟨0, 2, (5 : ℤ)⟩]).length = 1 ∧
      addSeg 2 5 [⟨0, 2, (5 : ℤ)⟩] = [⟨0, 3, 5⟩]) ∧
    ((5 : ℤ) ≠ 7 →
      (addSeg 2 7 [⟨0, 2, (5 : ℤ)⟩]).length = 2 ∧
      addSeg 2 7 [⟨0, 2, (5 : ℤ)⟩] = [⟨0, 2, 5⟩, ⟨2, 3, 7⟩]) := by
  refine ⟨by decide, rfl, ?_, ?_⟩
  · have h := C10_append_compression (x := 2) (w := 5) [⟨0, 2, (5 : ℤ)⟩]
      ⟨0, 2, 5⟩ (by decide) rfl
    intro hv
    have := h.1 hv
    simpa using this
  · have h := C10_append_compression (x := 2) (w := 7) [⟨0, 2, (5 : ℤ)⟩]
      ⟨0, 2, 5⟩ (by decide) rfl
    intro hv
    have := h.2 hv
    simpa using this

/-- `segments_intersection` (source lines 33-59) with explicit fuel so
that the two-cursor recursion is structural; the wrapper below supplies
fuel `|A| + |B|`, which the advancement rule can never exhaust early. -/
def segIntF : ℕ → List (Seg α) → List (Seg β) → List (ℤ × ℤ × α × β)
  | 0, _, _ => []
  | _ + 1, [], _ => []
  | _ + 1, _ :: _, [] => []
  | fuel + 1, a :: A, b :: B =>
    (if a.start ≤ b.start then
      (if b.start < a.stop then
        [(max a.start b.start, min a.stop b.stop, a.value, b.value)] else [])
    else
      (if a.start < b.stop then
        [(max a.start b.start, min a.stop b.stop, a.value, b.value)] else [])) ++
    (if a.stop ≤ b.stop then
      (if b.stop ≤ a.stop then segIntF fuel A B else segIntF fuel A (b :: B))
    else segIntF fuel (a :: A) B)

/-- Iterator over the intersection of two segment chains, yielding
`(start, end, valueA, valueB)` per overlapping subinterval. -/
def segments_intersection (A : List (Seg α)) (B : List (Seg β)) :
    List (ℤ × ℤ × α × β) :=
  segIntF (A.length + B.length) A B

/-- The output tuples of a chain intersection form a contiguous nonempty
cover of `[lo, hi)` in increasing start order (proof-side predicate). -/
def tuplesCover (lo hi : ℤ) : List (ℤ × ℤ × α × β) → Bool
  | [] => lo == hi
  | t :: rest => t.1 == lo && decide (t.1 < t.2.1) && tuplesCover t.2.1 hi rest

theorem covFromB_mem_bounds {lo hi : ℤ} :
    ∀ (c : List (Seg α)) (u : Seg α), covFromB lo hi c = true → u ∈ c →
      lo ≤ u.start ∧ u.stop ≤ hi := by
  intro c
  induction c generalizing lo with
  | nil => intro u _ hm; simp at hm
  | cons a rest ih =>
    intro u hc hm
    simp only [covFromB, Bool.and_eq_true, beq_iff_eq, decide_eq_true_eq] at hc
    rcases List.mem_cons.mp hm with rfl | hm'
    · constructor
      · omega
      · rcases rest with _ | ⟨b, rest'⟩
        · simp only [covFromB, beq_iff_eq] at hc
          omega
        · have := ih (u := b) hc.2 (by simp)
          simp only [covFromB, Bool.and_eq_true, beq_iff_eq, decide_eq_true_eq] at hc
          omega
    · have := ih (u := u) hc.2 hm'
      omega

theorem covFromB_le {lo hi : ℤ} :
    ∀ (c : List (Seg α)), covFromB lo hi c = true → lo ≤ hi ∧ (lo = hi → c = []) := by
  intro c
  induction c generalizing lo with
  | nil =>
    intro hc
    simp only [covFromB, beq_iff_eq] at hc
    exact ⟨le_of_eq hc, fun _ => rfl⟩
  | cons a rest ih =>
    intro hc
    simp only [covFromB, Bool.and_eq_true, beq_iff_eq, decide_eq_true_eq] at hc
    obtain ⟨⟨h1, h2⟩, h3⟩ := hc
    obtain ⟨h4, h5⟩ := ih h3
    constructor
    · omega
    · intro h
      exfalso
      omega

/-- An emitted intersection tuple lies inside one run of each chain with
matching values, and its right endpoint is either the domain end or a run
boundary of one of the chains (maximality). -/
def interProps (hi : ℤ) (A : List (Seg α)) (B : List (Seg β))
    (t : ℤ × ℤ × α × β) : Prop :=
  (∃ s ∈ A, s.start ≤ t.1 ∧ t.2.1 ≤ s.stop ∧ t.2.2.1 = s.value) ∧
  (∃ s ∈ B, s.start ≤ t.1 ∧ t.2.1 ≤ s.stop ∧ t.2.2.2 = s.value) ∧
  (t.2.1 = hi ∨ (∃ s ∈ A, s.stop = t.2.1) ∨ (∃ s ∈ B, s.stop = t.2.1))

theorem interProps_mono {hi : ℤ} {A A₂ : List (Seg α)} {B B₂ : List (Seg β)}
    (hA : ∀ s ∈ A, s ∈ A₂) (hB : ∀ s ∈ B, s ∈ B₂) (t : ℤ × ℤ × α × β) :
    interProps hi A B t → interProps hi A₂ B₂ t := by
  rintro ⟨⟨sa, hsa, h1⟩, ⟨sb, hsb, h2⟩, h3⟩
  refine ⟨⟨sa, hA sa hsa, h1⟩, ⟨sb, hB sb hsb, h2⟩, ?_⟩
  rcases h3 with h | ⟨s, hs, h⟩ | ⟨s, hs, h⟩
  · exact Or.inl h
  · exact Or.inr (Or.inl ⟨s, hA s hs, h⟩)
  · exact Or.inr (Or.inr ⟨s, hB s hs, h⟩)

theorem segIntF_nil_left (fuel : ℕ) (B : List (Seg β)) :
    segIntF fuel ([] : List (Seg α)) B = [] := by
  cases fuel <;> rfl

theorem segIntF_nil_right (fuel : ℕ) (A : List (Seg α)) :
    segIntF fuel A ([] : List (Seg β)) = [] := by
  cases fuel with
  | zero => rfl
  | succ fuel => cases A <;> rfl

theorem segIntF_spec {α β : Type} (hi : ℤ) :
    ∀ (fuel : ℕ) (a : Seg α) (A' : List (Seg α)) (b : Seg β) (B' : List (Seg β)),
    (a :: A').length + (b :: B').length ≤ fuel →
    covFromB a.start hi (a :: A') = true →
    covFromB b.start hi (b :: B') = true →
    b.start < a.stop → a.start < b.stop →
    tuplesCover (max a.start b.start) hi (segIntF fuel (a :: A') (b :: B')) = true ∧
    ∀ t ∈ segIntF fuel (a :: A') (b :: B'), interProps hi (a :: A') (b :: B') t := by
  intro fuel
  induction fuel with
  | zero => intro a A' b B' hf; simp at hf
  | succ fuel ih =>
    intro a A' b B' hf hA hB hlapA hlapB
    have hA0 := hA
    have hB0 := hB
    simp only [covFromB, Bool.and_eq_true, beq_iff_eq, decide_eq_true_eq] at hA0 hB0
    obtain ⟨⟨-, haa⟩, hA'⟩ := hA0
    obtain ⟨⟨-, hbb⟩, hB'⟩ := hB0
    have hbnd : b.stop ≤ hi := (covFromB_mem_bounds (b :: B') b hB (by simp)).2
    have hand : a.stop ≤ hi := (covFromB_mem_bounds (a :: A') a hA (by simp)).2
    have hem : (if a.start ≤ b.start then
        (if b.start < a.stop then
          [(max a.start b.start, min a.stop b.stop, a.value, b.value)] else [])
      else
        (if a.start < b.stop then
          [(max a.start b.start, min a.stop b.stop, a.value, b.value)] else [])) =
        [(max a.start b.start, min a.stop b.stop, a.value, b.value)] := by
      by_cases h : a.start ≤ b.start
      · rw [if_pos h, if_pos hlapA]
      · rw [if_neg h, if_pos hlapB]
    have hpe : max a.start b.start < min a.stop b.stop := by
      rcases max_cases a.start b.start with ⟨h1, h1'⟩ | ⟨h1, h1'⟩ <;>
        rcases min_cases a.stop b.stop with ⟨h2, h2'⟩ | ⟨h2, h2'⟩ <;> omega
    have htprops : interProps hi (a :: A') (b :: B')
        (max a.start b.start, min a.stop b.stop, a.value, b.value) := by
      refine ⟨⟨a, by simp, le_max_left _ _, min_le_left _ _, rfl⟩,
              ⟨b, by simp, le_max_right _ _, min_le_right _ _, rfl⟩, ?_⟩
      rcases le_or_lt a.stop b.stop with h | h
      · exact Or.inr (Or.inl ⟨a, by simp, (min_eq_left h).symm⟩)
      · exact Or.inr (Or.inr ⟨b, by simp, (min_eq_right h.le).symm⟩)
    rcases lt_trichotomy a.stop b.stop with hc | hc | hc
    · -- a.stop < b.stop: advance the A cursor only
      have hrec : segIntF (fuel + 1) (a :: A') (b :: B') =
          (max a.start b.start, min a.stop b.stop, a.value, b.value) ::
            segIntF fuel A' (b :: B') := by
        simp only [segIntF, hem, if_pos hc.le, if_neg (not_le.mpr hc)]
        rfl
      have hmin : min a.stop b.stop = a.stop := min_eq_left hc.le
      rcases A' with _ | ⟨a', A''⟩
      · exfalso
        simp only [covFromB, beq_iff_eq] at hA'
        omega
      · have ha's : a'.start = a.stop := by
          simp only [covFromB, Bool.and_eq_true, beq_iff_eq, decide_eq_true_eq] at hA'
          exact hA'.1.1
        have ha'lt : a'.start < a'.stop := by
          simp only [covFromB, Bool.and_eq_true, beq_iff_eq, decide_eq_true_eq] at hA'
          exact hA'.1.2
        have hA'' : covFromB a'.start hi (a' :: A'') = true := by
          rw [ha's]; exact hA'
        have hIH := ih a' A'' b B' (by simp at hf ⊢; omega) hA'' hB
          (by omega) (by omega)
        have hmax : max a'.start b.start = a'.start := max_eq_left (by omega)
        rw [hrec]
        constructor
        · simp only [tuplesCover, Bool.and_eq_true, beq_iff_eq, decide_eq_true_eq]
          refine ⟨⟨trivial, hpe⟩, ?_⟩
          have hcv := hIH.1
          rw [hmax] at hcv
          rw [hmin, ← ha's]
          exact hcv
        · intro t ht
          rcases List.mem_cons.mp ht with rfl | ht'
          · exact htprops
          · exact interProps_mono (fun s hs => List.mem_cons_of_mem a hs)
              (fun s hs => hs) t (hIH.2 t ht')
    · -- a.stop = b.stop: advance both cursors
      have hrec : segIntF (fuel + 1) (a :: A') (b :: B') =
          (max a.start b.start, min a.stop b.stop, a.value, b.value) ::
            segIntF fuel A' B' := by
        simp only [segIntF, hem, if_pos hc.le, if_pos hc.ge]
        rfl
      have hmin : min a.stop b.stop = a.stop := min_eq_left hc.le
      rcases A' with _ | ⟨a', A''⟩
      · -- chain A exhausted, so a.stop = hi and B' must be empty as well
        have hstop : a.stop = hi := by
          simp only [covFromB, beq_iff_eq] at hA'
          exact hA'
        have hB'nil : B' = [] := (covFromB_le B' hB').2 (by omega)
        subst hB'nil
        rw [hrec, segIntF_nil_left]
        constructor
        · simp only [tuplesCover, Bool.and_eq_true, beq_iff_eq, decide_eq_true_eq]
          refine ⟨⟨trivial, hpe⟩, ?_⟩
          rw [hmin, hstop]
        · intro t ht
          rcases List.mem_cons.mp ht with rfl | ht'
          · exact htprops
          · simp at ht'
      · have ha's : a'.start = a.stop := by
          simp only [covFromB, Bool.and_eq_true, beq_iff_eq, decide_eq_true_eq] at hA'
          exact hA'.1.1
        have ha'lt : a'.start < a'.stop := by
          simp only [covFromB, Bool.and_eq_true, beq_iff_eq, decide_eq_true_eq] at hA'
          exact hA'.1.2
        rcases B' with _ | ⟨b', B''⟩
        · exfalso
          simp only [covFromB, beq_iff_eq] at hB'
          have hbd := (covFromB_mem_bounds (a' :: A'') a' hA' (by simp)).2
          omega
        · have hb's : b'.start = b.stop := by
            simp only [covFromB, Bool.and_eq_true, beq_iff_eq, decide_eq_true_eq] at hB'
            exact hB'.1.1
          have hb'lt : b'.start < b'.stop := by
            simp only [covFromB, Bool.and_eq_true, beq_iff_eq, decide_eq_true_eq] at hB'
            exact hB'.1.2
          have hA'' : covFromB a'.start hi (a' :: A'') = true := by
            rw [ha's]; exact hA'
          have hB'' : covFromB b'.start hi (b' :: B'') = true := by
            rw [hb's]; exact hB'
          have hIH := ih a' A'' b' B'' (by simp at hf ⊢; omega) hA'' hB''
            (by omega) (by omega)
          have hmax : max a'.start b'.start = a.stop := by
            rw [ha's, hb's, ← hc, max_self]
          rw [hrec]
          constructor
          · simp only [tuplesCover, Bool.and_eq_true, beq_iff_eq, decide_eq_true_eq]
            refine ⟨⟨trivial, hpe⟩, ?_⟩
            have hcv := hIH.1
            rw [hmax] at hcv
            rw [hmin]
            exact hcv
          · intro t ht
            rcases List.mem_cons.mp ht with rfl | ht'
            · exact htprops
            · exact interProps_mono (fun s hs => List.mem_cons_of_mem a hs)
                (fun s hs => List.mem_cons_of_mem b hs) t (hIH.2 t ht')
    · -- b.stop < a.stop: advance the B cursor only
      have hrec : segIntF (fuel + 1) (a :: A') (b :: B') =
          (max a.start b.start, min a.stop b.stop, a.value, b.value) ::
            segIntF fuel (a :: A') B' := by
        simp only [segIntF, hem, if_neg (not_le.mpr hc)]
        rfl
      have hmin : min a.stop b.stop = b.stop := min_eq_right hc.le
      rcases B' with _ | ⟨b', B''⟩
      · exfalso
        simp only [covFromB, beq_iff_eq] at hB'
        omega
      · have hb's : b'.start = b.stop := by
          simp only [covFromB, Bool.and_eq_true, beq_iff_eq, decide_eq_true_eq] at hB'
          exact hB'.1.1
        have hb'lt : b'.start < b'.stop := by
          simp only [covFromB, Bool.and_eq_true, beq_iff_eq, decide_eq_true_eq] at hB'
          exact hB'.1.2
        have hB'' : covFromB b'.start hi (b' :: B'') = true := by
          rw [hb's]; exact hB'
        have hIH := ih a A' b' B'' (by simp at hf ⊢; omega) hA hB''
          (by omega) (by omega)
        have hmax : max a.start b'.start = b'.start := max_eq_right (by omega)
        rw [hrec]
        constructor
        · simp only [tuplesCover, Bool.and_eq_true, beq_iff_eq, decide_eq_true_eq]
          refine ⟨⟨trivial, hpe⟩, ?_⟩
          have hcv := hIH.1
          rw [hmax] at hcv
          rw [hmin, ← hb's]
          exact hcv
        · intro t ht
          rcases List.mem_cons.mp ht with rfl | ht'
          · exact htprops
          · exact interProps_mono (fun s hs => hs)
              (fun s hs => List.mem_cons_of_mem b hs) t (hIH.2 t ht')

/-- C3 -- `segments_intersection` on two chains covering the same domain
yields exactly the maximal common-constancy subintervals in increasing
start order (a contiguous cover of the domain, each tuple lying inside one
run of each chain with that run's value, each cut falling on a run
boundary), and on the spec's example chains it yields exactly the four
stated tuples. -/
theorem C3_segments_intersection {α β : Type} (lo hi : ℤ)
    (A : List (Seg α)) (B : List (Seg β))
    (hA : covFromB lo hi A = true) (hB : covFromB lo hi B = true) :
    (tuplesCover lo hi (segments_intersection A B) = true ∧
      ∀ t ∈ segments_intersection A B, interProps hi A B t) ∧
    (∀ (x y : α) (p q r : β),
      segments_intersection [⟨0, 3, x⟩, ⟨3, 6, y⟩] [⟨0, 2, p⟩, ⟨2, 4, q⟩, ⟨4, 6, r⟩] =
        [(0, 2, x, p), (2, 3, x, q), (3, 4, y, q), (4, 6, y, r)]) := by
  constructor
  · rcases A with _ | ⟨a, A'⟩
    · have hlohi : lo = hi := by simpa [covFromB] using hA
      have hBnil : B = [] := (covFromB_le B hB).2 hlohi
      subst hBnil
      constructor
      · simp [segments_intersection, segIntF_nil_left, tuplesCover, hlohi]
      · intro t ht
        simp [segments_intersection, segIntF_nil_left] at ht
    · rcases B with _ | ⟨b, B'⟩
      · exfalso
        have hlohi : lo = hi := by simpa [covFromB] using hB
        have : a :: A' = [] := (covFromB_le _ hA).2 hlohi
        simp at this
      · have has : a.start = lo := by
          simp only [covFromB, Bool.and_eq_true, beq_iff_eq, decide_eq_true_eq] at hA
          exact hA.1.1
        have hbs : b.start = lo := by
          simp only [covFromB, Bool.and_eq_true, beq_iff_eq, decide_eq_true_eq] at hB
          exact hB.1.1
        have haa : a.start < a.stop := by
          simp only [covFromB, Bool.and_eq_true, beq_iff_eq, decide_eq_true_eq] at hA
          exact hA.1.2
        have hbb : b.start < b.stop := by
          simp only [covFromB, Bool.and_eq_true, beq_iff_eq, decide_eq_true_eq] at hB
          exact hB.1.2
        have hA' : covFromB a.start hi (a :: A') = true := by rw [has]; exact hA
        have hB' : covFromB b.start hi (b :: B') = true := by rw [hbs]; exact hB
        have hsp := segIntF_spec hi ((a :: A').length + (b :: B').length) a A' b B'
          le_rfl hA' hB' (by omega) (by omega)
        have hmax : max a.start b.start = lo := by rw [has, hbs, max_self]
        rw [hmax] at hsp
        exact hsp
  · intro x y p q r
    rfl

theorem C3_witness :
    tuplesCover 0 1
      (segments_intersection [(⟨0, 1, (7 : ℤ)⟩ : Seg ℤ)] [(⟨0, 1, (9 : ℤ)⟩ : Seg ℤ)])
      = true ∧
    segments_intersection [(⟨0, 3, (1 : ℤ)⟩ : Seg ℤ), ⟨3, 6, 2⟩]
        [(⟨0, 2, (5 : ℤ)⟩ : Seg ℤ), ⟨2, 4, 6⟩, ⟨4, 6, 7⟩] =
      [(0, 2, 1, 5), (2, 3, 1, 6), (3, 4, 2, 6), (4, 6, 2, 7)] :=
  ⟨(C3_segments_intersection 0 1 [(⟨0, 1, (7 : ℤ)⟩ : Seg ℤ)]
      [(⟨0, 1, (9 : ℤ)⟩ : Seg ℤ)] (by decide) (by decide)).1.1,
   (C3_segments_intersection 0 1 [(⟨0, 1, (7 : ℤ)⟩ : Seg ℤ)]
      [(⟨0, 1, (9 : ℤ)⟩ : Seg ℤ)] (by decide) (by decide)).2 1 2 5 6 7⟩

/-- Scan of a forward chain for its maximum value and `best_haplotype`
(source lines 251-260 and 344-351): starts from `(-1, -1)`, overwrites on
`>=`, and records the scanned segment's last index `end - 1`. -/
def scanBest (V : List (Seg ℚ)) : ℚ × ℤ :=
  V.foldl (fun mb u => if u.value ≥ mb.1 then (u.value, u.stop - 1) else mb) (-1, -1)

/-- Append a run to a chain under construction, merging it into the
previous run when contiguous and equal-valued (the tail-extension pattern
of source lines 304-313 and 320-329). -/
def pushCoal [DecidableEq α] (c : List (Seg α)) (s e : ℤ) (v : α) : List (Seg α) :=
  match c.getLast? with
  | none => [⟨s, e, v⟩]
  | some t =>
    if t.stop = s ∧ t.value = v then c.dropLast ++ [⟨t.start, e, v⟩]
    else c ++ [⟨s, e, v⟩]

/-- The traceback recording of one merge overlap (source lines 297-313):
with `x = value * qr` and `y = pr`, record `[start, end) -> best` only
when `x < y`, coalescing into the previous run. -/
def tbPush (pr qr : ℚ) (best : ℤ) (r : Seg ℤ) (v : Seg ℚ)
    (Tacc : List (Seg ℤ)) : List (Seg ℤ) :=
  if v.value * qr ≥ pr then Tacc
  else pushCoal Tacc (max v.start r.start) (min v.stop r.stop) best

/-- The next-step forward value of one merge overlap (source lines
297-319): `z = max(x, y)` via the `x >= y` branch, then `0` on an unknown
library allele, `z*qm` on a match and `z*pm` on a mismatch. -/
def fwdVal (pr qr pm qm : ℚ) (hl : ℤ) (r : Seg ℤ) (v : Seg ℚ) : ℚ :=
  if r.value = -1 then 0
  else if r.value = hl then (if v.value * qr ≥ pr then v.value * qr else pr) * qm
  else (if v.value * qr ≥ pr then v.value * qr else pr) * pm

/-- Pushing the next forward value onto the chain under construction
(source lines 320-329). -/
def vPush (pr qr pm qm : ℚ) (hl : ℤ) (r : Seg ℤ) (v : Seg ℚ)
    (Vacc : List (Seg ℚ)) : List (Seg ℚ) :=
  pushCoal Vacc (max v.start r.start) (min v.stop r.stop)
    (fwdVal pr qr pm qm hl r v)

/-- The two-cursor merge loop of the forward pass (source lines 277-329),
fuelled so the recursion is structural: walks the site chain `R` and the
renormalised forward chain `V` in lockstep, with the source's advancement
rule, applying `tbPush` and `vPush` to each overlap. -/
def mergeLoopF (pr qr pm qm : ℚ) (best hl : ℤ) :
    ℕ → List (Seg ℤ) → List (Seg ℚ) → List (Seg ℤ) → List (Seg ℚ) →
    List (Seg ℤ) × List (Seg ℚ)
  | 0, _, _, Tacc, Vacc => (Tacc, Vacc)
  | _ + 1, [], _, Tacc, Vacc => (Tacc, Vacc)
  | _ + 1, _ :: _, [], Tacc, Vacc => (Tacc, Vacc)
  | fuel + 1, r :: R, v :: V, Tacc, Vacc =>
    if r.stop = v.stop then
      mergeLoopF pr qr pm qm best hl fuel R V
        (tbPush pr qr best r v Tacc) (vPush pr qr pm qm hl r v Vacc)
    else if r.stop < v.stop then
      mergeLoopF pr qr pm qm best hl fuel R (v :: V)
        (tbPush pr qr best r v Tacc) (vPush pr qr pm qm hl r v Vacc)
    else
      mergeLoopF pr qr pm qm best hl fuel (r :: R) V
        (tbPush pr qr best r v Tacc) (vPush pr qr pm qm hl r v Vacc)

/-- One site's merge step: traceback chain and next forward chain. -/
def mergeRuns (pr qr pm qm : ℚ) (best hl : ℤ) (R : List (Seg ℤ))
    (V : List (Seg ℚ)) : List (Seg ℤ) × List (Seg ℚ) :=
  mergeLoopF pr qr pm qm best hl (R.length + V.length) R V [] []

/-- The per-site forward loop of `best_path` (source lines 240-340):
processes `(h[l], site chain)` pairs in order, stopping at the first
unknown query value; checks the coverage asserts; returns the final
forward chain, the number of sites processed, and the recorded traceback
chains in site order. -/
def forwardLoop (pr qr pm qm : ℚ) (n : ℤ) :
    List (ℤ × List (Seg ℤ)) → List (Seg ℚ) →
    Except MatchError (List (Seg ℚ) × ℕ × List (List (Seg ℤ)))
  | [], V => .ok (V, 0, [])
  | (hl, R) :: rest, V =>
    if hl = -1 then .ok (V, 0, [])
    else if chainEnds 0 n V = false then .error .invariantViolation
    else
      let mxb := scanBest V
      let W := V.map (fun u => ⟨u.start, u.stop, u.value / mxb.1⟩)
      let TV := mergeRuns pr qr pm qm mxb.2 hl R W
      if chainCover 0 n TV.2 = false then .error .invariantViolation
      else
        match forwardLoop pr qr pm qm n rest TV.2 with
        | .ok (Vf, cnt, Ts) => .ok (Vf, cnt + 1, TV.1 :: Ts)
        | .error e => .error e

/-- The traceback-chain search inside `run_traceback` (source lines
187-195): return the first run containing `p`, giving up as soon as runs
start past `p`. -/
def searchT : List (Seg ℤ) → ℤ → Option ℤ
  | [], _ => none
  | u :: rest, p =>
    if u.start ≤ p ∧ p < u.stop then some u.value
    else if p < u.start then none
    else searchT rest p

/-- The descending site loop of `run_traceback`: `k` steps remain and `l`
is the current site; each step writes `P[l-1]`. -/
def tbGo (T : List (List (Seg ℤ))) : ℕ → ℕ → List ℤ → List ℤ
  | 0, _, P => P
  | k + 1, l, P =>
    let pv := P.getD l (-1)
    let value := (searchT (T.getD l []) pv).getD pv
    tbGo T k (l - 1) (P.set (l - 1) value)

/-- `AncestorMatcher.run_traceback` (source lines 177-199). -/
def run_traceback (num_sites : ℕ) (T : List (List (Seg ℤ)))
    (start_site end_site : ℕ) (end_site_value : ℤ) : List ℤ :=
  tbGo T (end_site - start_site) end_site
    ((List.replicate num_sites (-1 : ℤ)).set end_site end_site_value)

/-- `AncestorMatcher.best_path` (source lines 201-355): shape assert,
`start_site` scan, forward pass with per-site renormalisation, merge and
traceback recording, final scan, and traceback decoding.  `pr`, `qr`,
`pm`, `qm` are the Li-Stephens constants the source derives from
`rho`/`theta` via `exp` (taken as parameters; see the file comment). -/
def best_path (pr qr pm qm : ℚ) (s : AncestorMatcher) (h : List ℤ) :
    Except MatchError (List ℤ) :=
  if h.length = s.num_sites then
    match h.findIdx? (fun v => v != -1) with
    | none => .error .emptyQuery
    | some start_site =>
      match forwardLoop pr qr pm qm (s.num_ancestors : ℤ)
          ((h.drop start_site).zip (s.sites.drop start_site))
          [⟨0, (s.num_ancestors : ℤ), 1⟩] with
      | .error e => .error e
      | .ok (Vf, cnt, Ts) =>
        let T := List.replicate start_site ([] : List (Seg ℤ)) ++ Ts ++
          List.replicate (s.num_sites - (start_site + cnt)) ([] : List (Seg ℤ))
        .ok (run_traceback s.num_sites T start_site (start_site + cnt - 1)
          (scanBest Vf).2)
  else .error .shapeMismatch

/-- C9 -- an entirely unknown query haplotype makes the `start_site`
search run off the end of `h`; `best_path` fails with the empty-query
error and produces no path. -/
theorem C9_empty_query (pr qr pm qm : ℚ) (s : AncestorMatcher) (h : List ℤ)
    (hlen : h.length = s.num_sites) (hunk : ∀ v ∈ h, v = -1) :
    best_path pr qr pm qm s h = .error .emptyQuery := by
  unfold best_path
  rw [if_pos hlen]
  have hnone : h.findIdx? (fun v => v != -1) = none := by
    rw [List.findIdx?_eq_none_iff]
    intro v hv
    simp [hunk v hv]
  rw [hnone]

theorem C9_witness :
    best_path 0 0 0 0 (AncestorMatcher.init 2) [-1, -1] = .error .emptyQuery :=
  C9_empty_query 0 0 0 0 (AncestorMatcher.init 2) [-1, -1] (by decide) (by decide)

theorem pushCoal_cov [DecidableEq α] {p e : ℤ} {v : α} {c : List (Seg α)}
    (hc : covFromB 0 p c = true) (hpe : p < e) :
    covFromB 0 e (pushCoal c p e v) = true := by
  unfold pushCoal
  rcases hl : c.getLast? with _ | t
  · have : c = [] := List.getLast?_eq_none_iff.mp hl
    subst this
    have h0 : (0 : ℤ) = p := by simpa [covFromB] using hc
    subst h0
    simp [covFromB, hpe]
  · have hstop : t.stop = p := covFromB_getLast c t hc hl
    have hmem : t ∈ c := by
      obtain ⟨hne', heq⟩ := List.mem_getLast?_eq_getLast (l := c) (x := t)
        (by simp [Option.mem_def, hl])
      rw [heq]
      exact List.getLast_mem hne'
    have htlt : t.start < t.stop := covFromB_mem_lt c t hc hmem
    show covFromB 0 e
      (if t.stop = p ∧ t.value = v then c.dropLast ++ [⟨t.start, e, v⟩]
       else c ++ [⟨p, e, v⟩]) = true
    by_cases hv : t.stop = p ∧ t.value = v
    · rw [if_pos hv]
      have h1 := covFromB_dropLast c t hc hl
      exact covFromB_append_single (⟨t.start, e, v⟩ : Seg α) c.dropLast h1
        (by show t.start < e; omega)
    · rw [if_neg hv]
      exact covFromB_append_single (⟨p, e, v⟩ : Seg α) c hc (by show p < e; omega)

theorem covFromB_map_value {lo hi : ℤ} (g : Seg ℚ → ℚ) :
    ∀ (c : List (Seg ℚ)), covFromB lo hi c = true →
      covFromB lo hi (c.map (fun u => (⟨u.start, u.stop, g u⟩ : Seg ℚ))) = true := by
  intro c
  induction c generalizing lo with
  | nil => intro hc; simpa [covFromB] using hc
  | cons a rest ih =>
    intro hc
    simp only [covFromB, Bool.and_eq_true, beq_iff_eq, decide_eq_true_eq] at hc
    simp only [List.map_cons, covFromB, Bool.and_eq_true, beq_iff_eq,
      decide_eq_true_eq]
    exact ⟨⟨hc.1.1, hc.1.2⟩, ih hc.2⟩

theorem covFromB_chainCover {lo hi : ℤ} :
    ∀ (c : List (Seg α)), covFromB lo hi c = true → c ≠ [] →
      chainCover lo hi c = true := by
  intro c
  induction c generalizing lo with
  | nil => intro _ hne; simp at hne
  | cons a rest ih =>
    intro hc _
    simp only [covFromB, Bool.and_eq_true, beq_iff_eq, decide_eq_true_eq] at hc
    rcases rest with _ | ⟨b, rest'⟩
    · have : a.stop = hi := by simpa [covFromB] using hc.2
      simp [chainCover, hc.1.1, this]
    · have hbs : b.start = a.stop := by
        simp only [covFromB, Bool.and_eq_true, beq_iff_eq, decide_eq_true_eq] at hc
        exact hc.2.1.1
      have hrest : covFromB b.start hi (b :: rest') = true := by
        rw [hbs]; exact hc.2
      have := ih hrest (by simp)
      simp only [chainCover, Bool.and_eq_true, beq_iff_eq]
      exact ⟨⟨hc.1.1, hbs.symm⟩, this⟩

theorem covFromB_chainEnds {lo hi : ℤ} (c : List (Seg α))
    (hc : covFromB lo hi c = true) (hne : c ≠ []) : chainEnds lo hi c = true := by
  rcases c with _ | ⟨a, rest⟩
  · simp at hne
  · obtain ⟨t, hl⟩ : ∃ t, (a :: rest).getLast? = some t :=
      ⟨(a :: rest).getLast (by simp), List.getLast?_eq_getLast_of_ne_nil (by simp)⟩
    have hstop : t.stop = hi := covFromB_getLast _ t hc hl
    have hstart : a.start = lo := by
      simp only [covFromB, Bool.and_eq_true, beq_iff_eq, decide_eq_true_eq] at hc
      exact hc.1.1
    unfold chainEnds
    simp [hl, hstart, hstop]

theorem mergeLoopF_cov (pr qr pm qm : ℚ) (best hl : ℤ) (n : ℤ) :
    ∀ (fuel : ℕ) (R : List (Seg ℤ)) (V : List (Seg ℚ)) (Tacc : List (Seg ℤ))
      (Vacc : List (Seg ℚ)) (pR pV : ℤ),
    R.length + V.length ≤ fuel →
    covFromB pR n R = true → covFromB pV n V = true →
    covFromB 0 (max pR pV) Vacc = true →
    (∀ r' R' v' V', R = r' :: R' → V = v' :: V' → pV < r'.stop ∧ pR < v'.stop) →
    covFromB 0 n (mergeLoopF pr qr pm qm best hl fuel R V Tacc Vacc).2 = true := by
  intro fuel
  induction fuel with
  | zero =>
    intro R V Tacc Vacc pR pV hf hR hV hacc hov
    have hR0 : R = [] := by
      cases R with
      | nil => rfl
      | cons a l => simp at hf
    have hV0 : V = [] := by
      cases V with
      | nil => rfl
      | cons a l => subst hR0; simp at hf
    subst hR0; subst hV0
    have hpR : pR = n := by simpa [covFromB] using hR
    have hpV : pV = n := by simpa [covFromB] using hV
    subst hpR; subst hpV
    simpa [mergeLoopF] using hacc
  | succ fuel ih =>
    intro R V Tacc Vacc pR pV hf hR hV hacc hov
    rcases R with _ | ⟨r, R'⟩
    · have hpR : pR = n := by simpa [covFromB] using hR
      have hpV : pV ≤ n := (covFromB_le V hV).1
      have hm : max pR pV = n := by rw [hpR]; exact max_eq_left hpV
      rw [hm] at hacc
      simpa [mergeLoopF] using hacc
    · rcases V with _ | ⟨v, V'⟩
      · have hpV : pV = n := by simpa [covFromB] using hV
        have hpR : pR ≤ n := (covFromB_le _ hR).1
        have hm : max pR pV = n := by rw [hpV]; exact max_eq_right hpR
        rw [hm] at hacc
        simpa [mergeLoopF] using hacc
      · obtain ⟨hov1, hov2⟩ := hov r R' v V' rfl rfl
        have hR0 := hR
        have hV0 := hV
        simp only [covFromB, Bool.and_eq_true, beq_iff_eq, decide_eq_true_eq] at hR0 hV0
        obtain ⟨⟨hrs, hrlt⟩, hR'⟩ := hR0
        obtain ⟨⟨hvs, hvlt⟩, hV'⟩ := hV0
        have hstart : max v.start r.start = max pR pV := by
          rw [hrs, hvs, max_comm]
        have hse : max v.start r.start < min v.stop r.stop := by
          rcases max_cases v.start r.start with ⟨h1, h2⟩ | ⟨h1, h2⟩ <;>
            rcases min_cases v.stop r.stop with ⟨h3, h4⟩ | ⟨h3, h4⟩ <;> omega
        have hacc' : covFromB 0 (min v.stop r.stop)
            (vPush pr qr pm qm hl r v Vacc) = true := by
          unfold vPush
          exact pushCoal_cov (by rw [hstart]; exact hacc) hse
        rcases lt_trichotomy r.stop v.stop with hc | hc | hc
        · -- r.stop < v.stop: advance the R cursor
          have hmin : min v.stop r.stop = r.stop := min_eq_right hc.le
          simp only [mergeLoopF, if_neg (show ¬ r.stop = v.stop by omega), if_pos hc]
          apply ih R' (v :: V') _ _ r.stop pV (by simp at hf ⊢; omega) hR' hV
          · rw [hmin] at hacc'
            have : max r.stop pV = r.stop := max_eq_left hov1.le
            rw [this]
            exact hacc'
          · intro r'' R'' v'' V'' hR'' hV''
            have hv'' : v'' = v := by
              injection hV'' with h1 h2
              exact h1.symm
            subst hv''
            constructor
            · subst hR''
              simp only [covFromB, Bool.and_eq_true, beq_iff_eq,
                decide_eq_true_eq] at hR'
              omega
            · exact hc
        · -- r.stop = v.stop: advance both cursors
          have hmin : min v.stop r.stop = r.stop := by omega
          simp only [mergeLoopF, if_pos hc]
          apply ih R' V' _ _ r.stop v.stop (by simp at hf ⊢; omega) hR' hV'
          · rw [hmin] at hacc'
            have : max r.stop v.stop = r.stop := by rw [hc, max_self]
            rw [this]
            exact hacc'
          · intro r'' R'' v'' V'' hR'' hV''
            constructor
            · subst hR''
              simp only [covFromB, Bool.and_eq_true, beq_iff_eq,
                decide_eq_true_eq] at hR'
              omega
            · subst hV''
              simp only [covFromB, Bool.and_eq_true, beq_iff_eq,
                decide_eq_true_eq] at hV'
              omega
        · -- v.stop < r.stop: advance the V cursor
          have hmin : min v.stop r.stop = v.stop := min_eq_left hc.le
          simp only [mergeLoopF, if_neg (show ¬ r.stop = v.stop by omega),
            if_neg (show ¬ r.stop < v.stop by omega)]
          apply ih (r :: R') V' _ _ pR v.stop (by simp at hf ⊢; omega) hR hV'
          · rw [hmin] at hacc'
            have : max pR v.stop = v.stop := max_eq_right (by omega)
            rw [this]
            exact hacc'
          · intro r'' R'' v'' V'' hR'' hV''
            have hr'' : r'' = r := by
              injection hR'' with h1 h2
              exact h1.symm
            subst hr''
            constructor
            · exact hc
            · subst hV''
              simp only [covFromB, Bool.and_eq_true, beq_iff_eq,
                decide_eq_true_eq] at hV'
              omega

theorem forwardLoop_ok (pr qr pm qm : ℚ) (n : ℤ) (hn : 0 < n) :
    ∀ (sl : List (ℤ × List (Seg ℤ))) (V : List (Seg ℚ)),
    (∀ x ∈ sl, covFromB 0 n x.2 = true) →
    covFromB 0 n V = true →
    ∃ res, forwardLoop pr qr pm qm n sl V = .ok res := by
  intro sl
  induction sl with
  | nil => intro V _ _; exact ⟨_, rfl⟩
  | cons p rest ih =>
    intro V hsl hV
    obtain ⟨hl, R⟩ := p
    by_cases hhl : hl = -1
    · exact ⟨(V, 0, []), by simp [forwardLoop, hhl]⟩
    · have hVne : V ≠ [] := by
        intro hnil
        subst hnil
        have : (0 : ℤ) = n := by simpa [covFromB] using hV
        omega
      have hends : chainEnds 0 n V = true := covFromB_chainEnds V hV hVne
      have hW : covFromB 0 n
          (V.map (fun u => (⟨u.start, u.stop, u.value / (scanBest V).1⟩ : Seg ℚ)))
          = true :=
        covFromB_map_value _ V hV
      have hRcov : covFromB 0 n R = true := hsl (hl, R) (by simp)
      have hTV : covFromB 0 n
          (mergeRuns pr qr pm qm (scanBest V).2 hl R
            (V.map (fun u => (⟨u.start, u.stop, u.value / (scanBest V).1⟩ : Seg ℚ)))).2
          = true := by
        unfold mergeRuns
        apply mergeLoopF_cov pr qr pm qm _ hl n _ _ _ _ _ 0 0 le_rfl hRcov hW
          (by simp [covFromB])
        intro r' R' v' V' hR' hV'
        constructor
        · rw [hR'] at hRcov
          simp only [covFromB, Bool.and_eq_true, beq_iff_eq, decide_eq_true_eq] at hRcov
          omega
        · rw [hV'] at hW
          simp only [covFromB, Bool.and_eq_true, beq_iff_eq, decide_eq_true_eq] at hW
          omega
      have hTVne : (mergeRuns pr qr pm qm (scanBest V).2 hl R
          (V.map (fun u => (⟨u.start, u.stop, u.value / (scanBest V).1⟩ : Seg ℚ)))).2
          ≠ [] := by
        intro hnil
        rw [hnil] at hTV
        have : (0 : ℤ) = n := by simpa [covFromB] using hTV
        omega
      have hCC : chainCover 0 n (mergeRuns pr qr pm qm (scanBest V).2 hl R
          (V.map (fun u => (⟨u.start, u.stop, u.value / (scanBest V).1⟩ : Seg ℚ)))).2
          = true := covFromB_chainCover _ hTV hTVne
      obtain ⟨⟨Vf, cnt, Ts⟩, hres'⟩ := ih _ (fun x hx => hsl x (by simp [hx])) hTV
      refine ⟨(Vf, cnt + 1,
        (mergeRuns pr qr pm qm (scanBest V).2 hl R
          (V.map (fun u => (⟨u.start, u.stop, u.value / (scanBest V).1⟩ : Seg ℚ)))).1
          :: Ts), ?_⟩
      simp only [forwardLoop, if_neg hhl]
      rw [if_neg (by simp [hends]), if_neg (by simp [hCC])]
      rw [hres']

/-- C6 -- when the library's site chains contiguously cover
`[0, num_ancestors)` and the query has a defined value at `start_site`,
the internal consistency asserts of `best_path` never fail: every forward
chain produced by the merge step starts at 0, links contiguously and ends
at `num_ancestors`, so the invariant-violation branch is unreachable. -/
theorem C6_invariant_assertions (pr qr pm qm : ℚ) (s : AncestorMatcher)
    (h : List ℤ) (hwf : wfM s = true)
    (hdef : ∃ i, i < h.length ∧ h.getD i (-1) ≠ -1) :
    best_path pr qr pm qm s h ≠ .error .invariantViolation := by
  unfold wfM at hwf
  simp only [Bool.and_eq_true, beq_iff_eq, decide_eq_true_eq,
    List.all_eq_true] at hwf
  obtain ⟨⟨hlen, hn⟩, hch⟩ := hwf
  unfold best_path
  by_cases hl : h.length = s.num_sites
  · rw [if_pos hl]
    cases hfi : h.findIdx? (fun v => v != -1) with
    | none => simp
    | some ss =>
      have hn' : 0 < (s.num_ancestors : ℤ) := by exact_mod_cast hn
      have hV0 : covFromB 0 (s.num_ancestors : ℤ)
          [⟨0, (s.num_ancestors : ℤ), (1 : ℚ)⟩] = true := by
        simp [covFromB, hn']
      obtain ⟨⟨Vf, cnt, Ts⟩, hres⟩ := forwardLoop_ok pr qr pm qm
        (s.num_ancestors : ℤ) hn' ((h.drop ss).zip (s.sites.drop ss))
        [⟨0, (s.num_ancestors : ℤ), (1 : ℚ)⟩]
        (fun x hx => hch x.2 (List.mem_of_mem_drop (List.of_mem_zip hx).2)) hV0
      simp [hres]
  · rw [if_neg hl]
    simp

theorem C6_witness :
    best_path (1/2) (1/2) (1/4) (3/4) (AncestorMatcher.init 1) [0] ≠
      .error .invariantViolation :=
  C6_invariant_assertions (1/2) (1/2) (1/4) (3/4) (AncestorMatcher.init 1) [0]
    (by decide) ⟨0, by decide, by decide⟩

/-- The chain ordering of the data model: runs are non-overlapping and
ordered by start (proof-side predicate used for traceback chains). -/
def sortedB : List (Seg α) → Bool
  | [] => true
  | [u] => decide (u.start ≤ u.stop)
  | u :: v :: rest =>
    decide (u.start ≤ u.stop) && decide (u.stop ≤ v.start) && sortedB (v :: rest)

theorem sortedB_tail :
    ∀ (u : Seg α) (rest : List (Seg α)), sortedB (u :: rest) = true →
      sortedB rest = true := by
  intro u rest h
  rcases rest with _ | ⟨v, rest'⟩
  · rfl
  · simp only [sortedB, Bool.and_eq_true, decide_eq_true_eq] at h
    exact h.2

theorem sortedB_bound :
    ∀ (rest : List (Seg α)) (u : Seg α), sortedB (u :: rest) = true →
      ∀ w ∈ rest, u.stop ≤ w.start := by
  intro rest
  induction rest with
  | nil => intro u _ w hw; simp at hw
  | cons v rest' ih =>
    intro u h w hw
    simp only [sortedB, Bool.and_eq_true, decide_eq_true_eq] at h
    rcases List.mem_cons.mp hw with rfl | hw'
    · exact h.1.2
    · have h2 := ih v (by
        rcases rest' with _ | _
        · simp [sortedB]
          rcases h with ⟨-, h⟩
          simpa [sortedB] using h
        · exact h.2) w hw'
      have hv : v.start ≤ v.stop := by
        rcases rest' with _ | _
        · simpa [sortedB] using h.2
        · simp only [sortedB, Bool.and_eq_true, decide_eq_true_eq] at h
          exact h.2.1.1
      omega

theorem searchT_spec (p : ℤ) :
    ∀ (c : List (Seg ℤ)), sortedB c = true →
      (∀ w, searchT c p = some w →
        ∃ u ∈ c, u.start ≤ p ∧ p < u.stop ∧ u.value = w) ∧
      (searchT c p = none → ∀ u ∈ c, ¬(u.start ≤ p ∧ p < u.stop)) := by
  intro c
  induction c with
  | nil =>
    intro _
    exact ⟨fun w hw => by simp [searchT] at hw, fun _ u hu => by simp at hu⟩
  | cons a rest ih =>
    intro hs
    have hrest := sortedB_tail a rest hs
    obtain ⟨ih1, ih2⟩ := ih hrest
    by_cases hin : a.start ≤ p ∧ p < a.stop
    · constructor
      · intro w hw
        rw [searchT, if_pos hin] at hw
        exact ⟨a, by simp, hin.1, hin.2, Option.some_inj.mp hw⟩
      · intro hnone
        rw [searchT, if_pos hin] at hnone
        simp at hnone
    · by_cases hlt : p < a.start
      · constructor
        · intro w hw
          rw [searchT, if_neg hin, if_pos hlt] at hw
          simp at hw
        · intro _ u hu
          rcases List.mem_cons.mp hu with rfl | hu'
          · exact hin
          · have := sortedB_bound rest a hs u hu'
            have ha : a.start ≤ a.stop := by
              rcases rest with _ | _
              · simpa [sortedB] using hs
              · simp only [sortedB, Bool.and_eq_true, decide_eq_true_eq] at hs
                exact hs.1.1
            intro hcon
            omega
      · constructor
        · intro w hw
          rw [searchT, if_neg hin, if_neg hlt] at hw
          obtain ⟨u, hu, h1, h2, h3⟩ := ih1 w hw
          exact ⟨u, by simp [hu], h1, h2, h3⟩
        · intro hnone u hu
          rw [searchT, if_neg hin, if_neg hlt] at hnone
          rcases List.mem_cons.mp hu with rfl | hu'
          · exact hin
          · exact ih2 hnone u hu'

theorem getD_set_self {l : List ℤ} {i : ℕ} {a : ℤ} (h : i < l.length) :
    (l.set i a).getD i (-1) = a := by
  simp [List.getD_eq_getElem?_getD, List.getElem?_set_self h]

theorem getD_set_ne {l : List ℤ} {i j : ℕ} {a : ℤ} (h : i ≠ j) :
    (l.set i a).getD j (-1) = l.getD j (-1) := by
  simp [List.getD_eq_getElem?_getD, List.getElem?_set_ne h]

theorem tbGo_spec (T : List (List (Seg ℤ))) :
    ∀ (k l : ℕ) (P : List ℤ), k ≤ l → l < P.length →
    (tbGo T k l P).length = P.length ∧
    (∀ i, (i < l - k ∨ l ≤ i) → (tbGo T k l P).getD i (-1) = P.getD i (-1)) ∧
    (∀ j, l - k < j → j ≤ l →
      (tbGo T k l P).getD (j - 1) (-1) =
        (searchT (T.getD j []) ((tbGo T k l P).getD j (-1))).getD
          ((tbGo T k l P).getD j (-1))) := by
  intro k
  induction k with
  | zero =>
    intro l P _ _
    refine ⟨rfl, fun i _ => rfl, fun j hj1 hj2 => ?_⟩
    omega
  | succ k ih =>
    intro l P hkl hlP
    have hstep : tbGo T (k + 1) l P =
        tbGo T k (l - 1)
          (P.set (l - 1)
            ((searchT (T.getD l []) (P.getD l (-1))).getD (P.getD l (-1)))) := rfl
    have hP'len : (P.set (l - 1)
        ((searchT (T.getD l []) (P.getD l (-1))).getD (P.getD l (-1)))).length
        = P.length := by simp
    obtain ⟨ihlen, ihunch, ihrec⟩ := ih (l - 1)
      (P.set (l - 1)
        ((searchT (T.getD l []) (P.getD l (-1))).getD (P.getD l (-1))))
      (by omega) (by omega)
    refine ⟨?_, ?_, ?_⟩
    · rw [hstep, ihlen, hP'len]
    · intro i hi
      rw [hstep]
      rw [ihunch i (by omega)]
      exact getD_set_ne (by omega)
    · intro j hj1 hj2
      rw [hstep]
      by_cases hjl : j = l
      · subst hjl
        have h1 := ihunch (j - 1) (by omega)
        have h2 : (P.set (j - 1)
            ((searchT (T.getD j []) (P.getD j (-1))).getD (P.getD j (-1)))).getD
            (j - 1) (-1) =
            (searchT (T.getD j []) (P.getD j (-1))).getD (P.getD j (-1)) :=
          getD_set_self (by omega)
        have h3 := ihunch j (by omega)
        have h4 : (P.set (j - 1)
            ((searchT (T.getD j []) (P.getD j (-1))).getD (P.getD j (-1)))).getD
            j (-1) = P.getD j (-1) := getD_set_ne (by omega)
        rw [h1, h2, h3, h4]
      · exact ihrec j (by omega) (by omega)

/-- C7 -- `run_traceback` builds a path `P` of length `num_sites` with
`P[end_site] = end_site_value`; descending from `end_site` to
`start_site + 1`, `P[l-1]` is the recorded value of the run of `T[l]`
containing `P[l]` when one exists and `P[l]` otherwise; and every
position outside `[start_site, end_site]` stays at the `-1` sentinel. -/
theorem C7_run_traceback (num_sites : ℕ) (T : List (List (Seg ℤ)))
    (start_site end_site : ℕ) (esv : ℤ)
    (hse : start_site ≤ end_site) (hes : end_site < num_sites)
    (hT : ∀ c ∈ T, sortedB c = true) :
    (run_traceback num_sites T start_site end_site esv).length = num_sites ∧
    (run_traceback num_sites T start_site end_site esv).getD end_site (-1) = esv ∧
    (∀ l, start_site < l → l ≤ end_site →
      (∃ u ∈ T.getD l [],
        u.start ≤ (run_traceback num_sites T start_site end_site esv).getD l (-1) ∧
        (run_traceback num_sites T start_site end_site esv).getD l (-1) < u.stop ∧
        (run_traceback num_sites T start_site end_site esv).getD (l - 1) (-1) =
          u.value) ∨
      ((∀ u ∈ T.getD l [],
        ¬(u.start ≤ (run_traceback num_sites T start_site end_site esv).getD l (-1) ∧
          (run_traceback num_sites T start_site end_site esv).getD l (-1) < u.stop)) ∧
        (run_traceback num_sites T start_site end_site esv).getD (l - 1) (-1) =
          (run_traceback num_sites T start_site end_site esv).getD l (-1))) ∧
    (∀ i < num_sites, (i < start_site ∨ end_site < i) →
      (run_traceback num_sites T start_site end_site esv).getD i (-1) = -1) := by
  have hP0len : ((List.replicate num_sites (-1 : ℤ)).set end_site esv).length
      = num_sites := by simp
  obtain ⟨hlen, hunch, hrec⟩ := tbGo_spec T (end_site - start_site) end_site
    ((List.replicate num_sites (-1 : ℤ)).set end_site esv)
    (by omega) (by omega)
  have hreq : run_traceback num_sites T start_site end_site esv =
      tbGo T (end_site - start_site) end_site
        ((List.replicate num_sites (-1 : ℤ)).set end_site esv) := rfl
  refine ⟨by rw [hreq, hlen, hP0len], ?_, ?_, ?_⟩
  · rw [hreq, hunch end_site (by omega)]
    exact getD_set_self (by simp; omega)
  · intro l hl1 hl2
    have hrecl := hrec l (by omega) (by omega)
    have hsort : sortedB (T.getD l []) = true := by
      by_cases hlT : l < T.length
      · exact hT (T.getD l []) (by
          rw [List.getD_eq_getElem?_getD, List.getElem?_eq_getElem hlT]
          exact List.getElem_mem hlT)
      · rw [List.getD_eq_getElem?_getD, List.getElem?_eq_none (by omega)]
        rfl
    obtain ⟨hsome, hnone⟩ := searchT_spec
      ((run_traceback num_sites T start_site end_site esv).getD l (-1))
      (T.getD l []) hsort
    rcases hs : searchT (T.getD l [])
        ((run_traceback num_sites T start_site end_site esv).getD l (-1)) with _ | w
    · right
      refine ⟨hnone hs, ?_⟩
      rw [hreq] at hs ⊢
      rw [hrecl, hs]
      rfl
    · left
      obtain ⟨u, hu, h1, h2, h3⟩ := hsome w hs
      refine ⟨u, hu, h1, h2, ?_⟩
      rw [hreq] at hs ⊢
      rw [hrecl, hs]
      exact h3.symm
  · intro i hi hio
    rw [hreq, hunch i (by omega), getD_set_ne (by omega)]
    rw [List.getD_eq_getElem?_getD, List.getElem?_replicate_of_lt hi]
    rfl

theorem C7_witness :
    (run_traceback 3 [[], [⟨0, 2, 5⟩]] 0 1 1).length = 3 ∧
    (run_traceback 3 [[], [⟨0, 2, 5⟩]] 0 1 1).getD 1 (-1) = 1 ∧
    (run_traceback 3 [[], [⟨0, 2, 5⟩]] 0 1 1).getD 2 (-1) = -1 := by
  have h := C7_run_traceback 3 [[], [⟨0, 2, 5⟩]] 0 1 1 (by decide) (by decide)
    (by decide)
  exact ⟨h.1, h.2.1, h.2.2.2 2 (by decide) (by decide)⟩

/-- The value a chain assigns to ancestor index `i` (`-1` when no run
covers `i`); proof-side evaluation function. -/
def evalCh (c : List (Seg ℤ)) (i : ℤ) : ℤ :=
  match c.find? (fun u => decide (u.start ≤ i) && decide (i < u.stop)) with
  | some u => u.value
  | none => -1

theorem find?_cov_none_ge {lo hi i : ℤ} (c : List (Seg ℤ))
    (hc : covFromB lo hi c = true) (hge : hi ≤ i) :
    c.find? (fun u => decide (u.start ≤ i) && decide (i < u.stop)) = none := by
  rw [List.find?_eq_none]
  intro u hu
  have := covFromB_mem_bounds c u hc hu
  simp only [Bool.and_eq_true, decide_eq_true_eq, not_and]
  intro _
  omega

theorem evalCh_append_top {y x : ℤ} {c : List (Seg ℤ)} (u : Seg ℤ)
    (hc : covFromB 0 y c = true) (hyx : y ≤ x) (hu1 : u.start ≤ x)
    (hu2 : x < u.stop) : evalCh (c ++ [u]) x = u.value := by
  unfold evalCh
  rw [List.find?_append, find?_cov_none_ge c hc hyx]
  simp [List.find?_cons_of_pos, hu1, hu2]

theorem evalCh_append_lt {x i : ℤ} {c : List (Seg ℤ)} (u : Seg ℤ)
    (hi : i < x) (hus : x ≤ u.start) :
    evalCh (c ++ [u]) i = evalCh c i := by
  unfold evalCh
  rw [List.find?_append]
  cases hf : c.find? (fun u => decide (u.start ≤ i) && decide (i < u.stop)) with
  | some w => simp
  | none =>
    simp only [Option.none_or]
    rw [List.find?_cons_of_neg _ (by
      simp only [Bool.and_eq_true, decide_eq_true_eq, not_and]
      intro hcon
      omega)]
    rfl

theorem c_eq_dropLast_last {c : List (Seg ℤ)} {t : Seg ℤ}
    (hl : c.getLast? = some t) : c = c.dropLast ++ [t] := by
  obtain ⟨hne', heq⟩ := List.mem_getLast?_eq_getLast (l := c) (x := t)
    (by simp [Option.mem_def, hl])
  rw [heq]
  exact (List.dropLast_append_getLast hne').symm

theorem evalCh_addSeg_eq {x : ℤ} {v : ℤ} {c : List (Seg ℤ)} (hx : 0 < x)
    (hc : covFromB 0 x c = true) : evalCh (addSeg x v c) x = v := by
  unfold addSeg
  rcases hl : c.getLast? with _ | t
  · exfalso
    have : c = [] := List.getLast?_eq_none_iff.mp hl
    subst this
    simp only [covFromB, beq_iff_eq] at hc
    omega
  · have hstop : t.stop = x := covFromB_getLast c t hc hl
    have hmem : t ∈ c := by
      obtain ⟨hne', heq⟩ := List.mem_getLast?_eq_getLast (l := c) (x := t)
        (by simp [Option.mem_def, hl])
      rw [heq]
      exact List.getLast_mem hne'
    have htlt : t.start < t.stop := covFromB_mem_lt c t hc hmem
    have hdl : covFromB 0 t.start c.dropLast = true := covFromB_dropLast c t hc hl
    show evalCh
      (if t.stop = x ∧ t.value = v then c.dropLast ++ [⟨t.start, t.stop + 1, t.value⟩]
       else c ++ [⟨x, x + 1, v⟩]) x = v
    by_cases hv : t.stop = x ∧ t.value = v
    · rw [if_pos hv]
      rw [evalCh_append_top (⟨t.start, t.stop + 1, t.value⟩ : Seg ℤ) hdl
        (by omega) (by show t.start ≤ x; omega) (by show x < t.stop + 1; omega)]
      exact hv.2
    · rw [if_neg hv]
      exact evalCh_append_top (⟨x, x + 1, v⟩ : Seg ℤ) hc le_rfl
        (by show x ≤ x; omega) (by show x < x + 1; omega)

theorem evalCh_addSeg_lt {x i : ℤ} {v : ℤ} {c : List (Seg ℤ)}
    (hc : covFromB 0 x c = true) (hi : i < x) :
    evalCh (addSeg x v c) i = evalCh c i := by
  unfold addSeg
  rcases hl : c.getLast? with _ | t
  · have : c = [] := List.getLast?_eq_none_iff.mp hl
    subst this
    have h0 : (0 : ℤ) = x := by simpa [covFromB] using hc
    show evalCh [⟨x, x + 1, v⟩] i = evalCh [] i
    unfold evalCh
    rw [List.find?_cons_of_neg _ (by
      simp only [Bool.and_eq_true, decide_eq_true_eq, not_and]
      intro hcon
      omega)]
  · have hstop : t.stop = x := covFromB_getLast c t hc hl
    have hmem : t ∈ c := by
      obtain ⟨hne', heq⟩ := List.mem_getLast?_eq_getLast (l := c) (x := t)
        (by simp [Option.mem_def, hl])
      rw [heq]
      exact List.getLast_mem hne'
    have htlt : t.start < t.stop := covFromB_mem_lt c t hc hmem
    show evalCh
      (if t.stop = x ∧ t.value = v then c.dropLast ++ [⟨t.start, t.stop + 1, t.value⟩]
       else c ++ [⟨x, x + 1, v⟩]) i = evalCh c i
    by_cases hv : t.stop = x ∧ t.value = v
    · rw [if_pos hv]
      conv_rhs => rw [c_eq_dropLast_last hl]
      unfold evalCh
      rw [List.find?_append, List.find?_append]
      cases hf : c.dropLast.find?
          (fun u => decide (u.start ≤ i) && decide (i < u.stop)) with
      | some w => simp
      | none =>
        simp only [Option.none_or]
        by_cases hts : t.start ≤ i
        · rw [List.find?_cons_of_pos _ (by
            simp only [Bool.and_eq_true, decide_eq_true_eq]
            exact ⟨hts, by show i < t.stop + 1; omega⟩)]
          rw [List.find?_cons_of_pos _ (by
            simp only [Bool.and_eq_true, decide_eq_true_eq]
            exact ⟨hts, by omega⟩)]
        · rw [List.find?_cons_of_neg _ (by
            simp only [Bool.and_eq_true, decide_eq_true_eq, not_and]
            intro hcon
            omega)]
          rw [List.find?_cons_of_neg _ (by
            simp only [Bool.and_eq_true, decide_eq_true_eq, not_and]
            intro hcon
            omega)]
    · rw [if_neg hv]
      exact evalCh_append_lt (⟨x, x + 1, v⟩ : Seg ℤ) hi (by show x ≤ x; omega)

theorem sites_add_getD (s : AncestorMatcher) (h : List ℤ) (j : ℕ)
    (hj : j < s.sites.length) (hjh : j < h.length) :
    (List.zipWith (fun c v => addSeg (s.num_ancestors : ℤ) v c) s.sites h).getD j []
      = addSeg (s.num_ancestors : ℤ) (h.getD j 0) (s.sites.getD j []) := by
  rw [List.getD_eq_getElem?_getD, List.getElem?_zipWith,
    List.getElem?_eq_getElem hj, List.getElem?_eq_getElem hjh]
  simp [List.getD_eq_getElem?_getD, List.getElem?_eq_getElem hj,
    List.getElem?_eq_getElem hjh]

theorem add_step (s : AncestorMatcher) (h : List ℤ) (hwf : wfM s = true)
    (hlen : h.length = s.num_sites) :
    ∃ s₂, AncestorMatcher.add s h = .ok s₂ ∧ wfM s₂ = true ∧
      s₂.num_sites = s.num_sites ∧ s₂.num_ancestors = s.num_ancestors + 1 ∧
      (∀ j < s.num_sites,
        s₂.sites.getD j [] =
          addSeg (s.num_ancestors : ℤ) (h.getD j 0) (s.sites.getD j [])) := by
  unfold wfM at hwf
  simp only [Bool.and_eq_true, beq_iff_eq, decide_eq_true_eq,
    List.all_eq_true] at hwf
  obtain ⟨⟨hslen, hn⟩, hch⟩ := hwf
  refine ⟨{ num_sites := s.num_sites, num_ancestors := s.num_ancestors + 1,
            sites := List.zipWith (fun c v => addSeg (s.num_ancestors : ℤ) v c)
              s.sites h },
          by simp [AncestorMatcher.add, hlen], ?_, rfl, rfl, ?_⟩
  · unfold wfM
    simp only [Bool.and_eq_true, beq_iff_eq, decide_eq_true_eq, List.all_eq_true]
    refine ⟨⟨by simp [List.length_zipWith, hslen, hlen], by omega⟩, ?_⟩
    intro c hc
    obtain ⟨j, hjlt, hj⟩ := List.mem_iff_getElem.mp hc
    have hj1 : j < s.sites.length := by
      simp [List.length_zipWith] at hjlt
      omega
    have hj2 : j < h.length := by
      simp [List.length_zipWith] at hjlt
      omega
    have : (List.zipWith (fun c v => addSeg (s.num_ancestors : ℤ) v c) s.sites h)[j]
        = addSeg (s.num_ancestors : ℤ) h[j] s.sites[j] := by
      simp [List.getElem_zipWith]
    rw [← hj, this]
    have hcv : covFromB 0 (s.num_ancestors : ℤ) s.sites[j] = true :=
      hch s.sites[j] (List.getElem_mem hj1)
    have := addSeg_cov (v := h[j]) (by exact_mod_cast hn) hcv
    have hcast : ((s.num_ancestors + 1 : ℕ) : ℤ) = (s.num_ancestors : ℤ) + 1 := by
      push_cast
      ring
    rw [hcast]
    exact this
  · intro j hj
    have hj1 : j < s.sites.length := by omega
    have hj2 : j < h.length := by omega
    exact sites_add_getD s h j hj1 hj2

theorem addAll_inv :
    ∀ (hs : List (List ℤ)) (s s' : AncestorMatcher),
    wfM s = true → (∀ h ∈ hs, h.length = s.num_sites) →
    addAll s hs = .ok s' →
    wfM s' = true ∧ s'.num_sites = s.num_sites ∧
    s'.num_ancestors = s.num_ancestors + hs.length ∧
    (∀ j < s.num_sites,
      (∀ i : ℤ, 0 ≤ i → i < (s.num_ancestors : ℤ) →
        evalCh (s'.sites.getD j []) i = evalCh (s.sites.getD j []) i) ∧
      (∀ t : ℕ, t < hs.length →
        evalCh (s'.sites.getD j []) ((s.num_ancestors : ℤ) + t) =
          (hs.getD t []).getD j 0)) := by
  intro hs
  induction hs with
  | nil =>
    intro s s' hwf hlen hadd
    have hss : s = s' := by
      unfold addAll at hadd
      simp only [List.foldlM_nil] at hadd
      exact (Except.ok.injEq _ _).mp hadd
    subst hss
    exact ⟨hwf, rfl, by simp, fun j hj =>
      ⟨fun i _ _ => rfl, fun t ht => by simp at ht⟩⟩
  | cons h rest ih =>
    intro s s' hwf hlen hadd
    obtain ⟨s₂, hok, hwf₂, hns₂, hna₂, hsites₂⟩ := add_step s h hwf (hlen h (by simp))
    unfold addAll at hadd
    rw [List.foldlM_cons, hok] at hadd
    have hadd₂ : addAll s₂ rest = .ok s' := hadd
    obtain ⟨ihwf, ihns, ihna, iheval⟩ := ih s₂ s' hwf₂
      (fun h' hh' => by rw [hns₂]; exact hlen h' (by simp [hh'])) hadd₂
    refine ⟨ihwf, by omega, by simp [ihna, hna₂]; omega, ?_⟩
    intro j hj
    have hj₂ : j < s₂.num_sites := by omega
    have hcvj : covFromB 0 (s.num_ancestors : ℤ) (s.sites.getD j []) = true := by
      unfold wfM at hwf
      simp only [Bool.and_eq_true, beq_iff_eq, decide_eq_true_eq,
        List.all_eq_true] at hwf
      refine hwf.2 (s.sites.getD j []) ?_
      rw [List.getD_eq_getElem?_getD,
        List.getElem?_eq_getElem (by omega : j < s.sites.length)]
      exact List.getElem_mem _
    have hn0 : 0 < s.num_ancestors := by
      unfold wfM at hwf
      simp only [Bool.and_eq_true, beq_iff_eq, decide_eq_true_eq,
        List.all_eq_true] at hwf
      exact hwf.1.2
    constructor
    · intro i hi0 hin
      rw [(iheval j hj₂).1 i hi0 (by
        rw [hna₂]
        push_cast
        omega)]
      rw [hsites₂ j hj]
      exact evalCh_addSeg_lt hcvj hin
    · intro t ht
      cases t with
      | zero =>
        have h1 := (iheval j hj₂).1 ((s.num_ancestors : ℤ) + 0)
          (by positivity) (by rw [hna₂]; push_cast; omega)
        simp only [Nat.cast_zero]
        rw [h1, hsites₂ j hj]
        simp only [List.getD_cons_zero, add_zero]
        exact evalCh_addSeg_eq (by exact_mod_cast hn0) hcvj
      | succ t' =>
        have h2 := (iheval j hj₂).2 t' (by simp at ht; omega)
        have hcast : (s₂.num_ancestors : ℤ) + t' =
            (s.num_ancestors : ℤ) + (t' + 1 : ℕ) := by
          rw [hna₂]
          push_cast
          ring
        rw [hcast] at h2
        rw [h2]
        simp

theorem init_wf (m : ℕ) : wfM (AncestorMatcher.init m) = true := by
  unfold wfM AncestorMatcher.init
  simp only [Bool.and_eq_true, beq_iff_eq, decide_eq_true_eq, List.all_eq_true,
    List.length_replicate]
  refine ⟨⟨by trivial, by omega⟩, ?_⟩
  intro c hc
  rw [List.eq_of_mem_replicate hc]
  decide

/-- C4 -- after any sequence of well-shaped `add` calls the runs of every
site chain satisfy `run[0].start = 0`, `run[i].end = run[i+1].start` and
`run[last].end = num_ancestors` (the `chainCover` predicate); and a single
`add` on a well-formed library extends every site chain's covered range by
exactly one, either extending the last run when its value matches the new
allele or appending a new unit-length run. -/
theorem C4_chain_coverage (m : ℕ) (hs : List (List ℤ)) (s' : AncestorMatcher)
    (hlen : ∀ h ∈ hs, h.length = m)
    (hadd : addAll (AncestorMatcher.init m) hs = .ok s') :
    (∀ c ∈ s'.sites, chainCover 0 (s'.num_ancestors : ℤ) c = true) ∧
    (∀ (s₂ : AncestorMatcher) (h : List ℤ) (s₃ : AncestorMatcher),
      wfM s₂ = true → h.length = s₂.num_sites → AncestorMatcher.add s₂ h = .ok s₃ →
      ∀ j < s₂.num_sites,
        chainCover 0 ((s₂.num_ancestors : ℤ) + 1) (s₃.sites.getD j []) = true ∧
        ∃ t, (s₂.sites.getD j []).getLast? = some t ∧
          t.stop = (s₂.num_ancestors : ℤ) ∧
          (t.value = h.getD j 0 →
            s₃.sites.getD j [] =
              (s₂.sites.getD j []).dropLast ++ [⟨t.start, t.stop + 1, t.value⟩]) ∧
          (t.value ≠ h.getD j 0 →
            s₃.sites.getD j [] =
              s₂.sites.getD j [] ++
                [⟨(s₂.num_ancestors : ℤ), (s₂.num_ancestors : ℤ) + 1, h.getD j 0⟩])) := by
  constructor
  · obtain ⟨hwf', -, -, -⟩ := addAll_inv hs (AncestorMatcher.init m) s'
      (init_wf m) (fun h hh => hlen h hh) hadd
    unfold wfM at hwf'
    simp only [Bool.and_eq_true, beq_iff_eq, decide_eq_true_eq,
      List.all_eq_true] at hwf'
    intro c hc
    refine covFromB_chainCover c (hwf'.2 c hc) ?_
    intro hnil
    subst hnil
    have := hwf'.2 ([] : List (Seg ℤ)) hc
    simp only [covFromB, beq_iff_eq] at this
    omega
  · intro s₂ h s₃ hwf₂ hlen₂ hok j hj
    obtain ⟨s₄, hok₄, hwf₄, -, -, hsites₄⟩ := add_step s₂ h hwf₂ hlen₂
    have hs34 : s₃ = s₄ := by
      rw [hok] at hok₄
      exact (Except.ok.injEq _ _).mp hok₄
    subst hs34
    unfold wfM at hwf₂
    simp only [Bool.and_eq_true, beq_iff_eq, decide_eq_true_eq,
      List.all_eq_true] at hwf₂
    obtain ⟨⟨hslen₂, hn₂⟩, hch₂⟩ := hwf₂
    have hcvj : covFromB 0 (s₂.num_ancestors : ℤ) (s₂.sites.getD j []) = true := by
      refine hch₂ (s₂.sites.getD j []) ?_
      rw [List.getD_eq_getElem?_getD,
        List.getElem?_eq_getElem (by omega : j < s₂.sites.length)]
      exact List.getElem_mem _
    have hne : s₂.sites.getD j [] ≠ [] := by
      intro hnil
      rw [hnil] at hcvj
      simp only [covFromB, beq_iff_eq] at hcvj
      omega
    obtain ⟨t, hlast⟩ : ∃ t, (s₂.sites.getD j []).getLast? = some t :=
      ⟨(s₂.sites.getD j []).getLast hne, List.getLast?_eq_getLast_of_ne_nil hne⟩
    have hstop : t.stop = (s₂.num_ancestors : ℤ) :=
      covFromB_getLast _ t hcvj hlast
    constructor
    · have := addSeg_cov (v := h.getD j 0) (by exact_mod_cast hn₂) hcvj
      rw [hsites₄ j hj]
      refine covFromB_chainCover _ this ?_
      intro hnil
      rw [hnil] at this
      simp only [covFromB, beq_iff_eq] at this
      omega
    · refine ⟨t, hlast, hstop, ?_, ?_⟩
      · intro hv
        rw [hsites₄ j hj]
        unfold addSeg
        rw [hlast]
        show (if t.stop = (s₂.num_ancestors : ℤ) ∧ t.value = h.getD j 0 then
            (s₂.sites.getD j []).dropLast ++ [⟨t.start, t.stop + 1, t.value⟩]
          else s₂.sites.getD j [] ++
            [⟨(s₂.num_ancestors : ℤ), (s₂.num_ancestors : ℤ) + 1, h.getD j 0⟩])
          = (s₂.sites.getD j []).dropLast ++ [⟨t.start, t.stop + 1, t.value⟩]
        rw [if_pos ⟨hstop, hv⟩]
      · intro hv
        rw [hsites₄ j hj]
        unfold addSeg
        rw [hlast]
        show (if t.stop = (s₂.num_ancestors : ℤ) ∧ t.value = h.getD j 0 then
            (s₂.sites.getD j []).dropLast ++ [⟨t.start, t.stop + 1, t.value⟩]
          else s₂.sites.getD j [] ++
            [⟨(s₂.num_ancestors : ℤ), (s₂.num_ancestors : ℤ) + 1, h.getD j 0⟩])
          = s₂.sites.getD j [] ++
            [⟨(s₂.num_ancestors : ℤ), (s₂.num_ancestors : ℤ) + 1, h.getD j 0⟩]
        rw [if_neg (by
          intro hcon
          exact hv hcon.2)]

theorem C4_witness :
    chainCover 0 2 [(⟨0, 1, 0⟩ : Seg ℤ), ⟨1, 2, 1⟩] = true :=
  (C4_chain_coverage 1 [[1]] ⟨1, 2, [[⟨0, 1, 0⟩, ⟨1, 2, 1⟩]]⟩
      (by decide) (by rfl)).1
    [⟨0, 1, 0⟩, ⟨1, 2, 1⟩] (by simp)

/-- The slice assignment `H[u.start:u.end, j] = u.value` of
`decode_ancestors` (source line 375), scanning rows from index `i0`. -/
def setCol (a b : ℤ) (j : ℕ) (v : ℤ) : ℤ → List (List ℤ) → List (List ℤ)
  | _, [] => []
  | i, row :: rest =>
    (if a ≤ i ∧ i < b then row.set j v else row) :: setCol a b j v (i + 1) rest

/-- Write a whole site chain into column `j` of the matrix. -/
def writeChain (c : List (Seg ℤ)) (j : ℕ) (H : List (List ℤ)) : List (List ℤ) :=
  c.foldl (fun H' u => setCol u.start u.stop j u.value 0 H') H

/-- `AncestorMatcher.decode_ancestors` (source lines 365-381): checks the
per-chain coverage asserts, then materialises the dense ancestor matrix
(one row per ancestor) from the per-site chains, starting from `-1`. -/
def decode_ancestors (s : AncestorMatcher) : Option (List (List ℤ)) :=
  if s.sites.all (fun c => chainCover 0 (s.num_ancestors : ℤ) c) then
    some ((s.sites.enumFrom 0).foldl (fun H jc => writeChain jc.2 jc.1 H)
      (List.replicate s.num_ancestors (List.replicate s.num_sites (-1 : ℤ))))
  else none

/-- Matrix entry accessor (proof-side). -/
def ent (H : List (List ℤ)) (i j : ℕ) : ℤ := (H.getD i []).getD j (-1)

theorem setCol_length (a b : ℤ) (j : ℕ) (v : ℤ) :
    ∀ (H : List (List ℤ)) (i0 : ℤ), (setCol a b j v i0 H).length = H.length := by
  intro H
  induction H with
  | nil => intro i0; rfl
  | cons row rest ih => intro i0; simp [setCol, ih]

theorem setCol_getD_in (a b : ℤ) (j : ℕ) (v : ℤ) :
    ∀ (H : List (List ℤ)) (i0 : ℤ) (i : ℕ), i < H.length →
      a ≤ i0 + (i : ℤ) → i0 + (i : ℤ) < b →
      (setCol a b j v i0 H).getD i [] = (H.getD i []).set j v := by
  intro H
  induction H with
  | nil => intro i0 i hi; simp at hi
  | cons row rest ih =>
    intro i0 i hi h1 h2
    cases i with
    | zero =>
      simp only [Nat.cast_zero, add_zero] at h1 h2
      simp [setCol, h1, h2]
    | succ k =>
      have := ih (i0 + 1) k (by simpa using hi)
        (by push_cast at h1 ⊢; omega) (by push_cast at h2 ⊢; omega)
      simpa [setCol] using this

theorem setCol_getD_out (a b : ℤ) (j : ℕ) (v : ℤ) :
    ∀ (H : List (List ℤ)) (i0 : ℤ) (i : ℕ),
      ¬(a ≤ i0 + (i : ℤ) ∧ i0 + (i : ℤ) < b) →
      (setCol a b j v i0 H).getD i [] = H.getD i [] := by
  intro H
  induction H with
  | nil => intro i0 i _; simp [setCol]
  | cons row rest ih =>
    intro i0 i hcond
    cases i with
    | zero =>
      simp only [Nat.cast_zero, add_zero] at hcond
      simp only [setCol, List.getD_cons_zero]
      rw [if_neg hcond]
    | succ k =>
      have := ih (i0 + 1) k (by push_cast at hcond ⊢; omega)
      simpa [setCol] using this

theorem setCol_rowlen (a b : ℤ) (j : ℕ) (v : ℤ) :
    ∀ (H : List (List ℤ)) (i0 : ℤ) (i : ℕ),
      ((setCol a b j v i0 H).getD i []).length = (H.getD i []).length := by
  intro H
  induction H with
  | nil => intro i0 i; simp [setCol]
  | cons row rest ih =>
    intro i0 i
    cases i with
    | zero =>
      simp only [setCol, List.getD_cons_zero]
      split <;> simp
    | succ k =>
      simpa [setCol] using ih (i0 + 1) k

theorem writeChain_length (j : ℕ) :
    ∀ (c : List (Seg ℤ)) (H : List (List ℤ)),
      (writeChain c j H).length = H.length := by
  intro c
  induction c with
  | nil => intro H; rfl
  | cons u rest ih =>
    intro H
    show (writeChain rest j (setCol u.start u.stop j u.value 0 H)).length = H.length
    rw [ih, setCol_length]

theorem writeChain_rowlen (j : ℕ) :
    ∀ (c : List (Seg ℤ)) (H : List (List ℤ)) (i : ℕ),
      ((writeChain c j H).getD i []).length = (H.getD i []).length := by
  intro c
  induction c with
  | nil => intro H i; rfl
  | cons u rest ih =>
    intro H i
    show ((writeChain rest j (setCol u.start u.stop j u.value 0 H)).getD i []).length
      = (H.getD i []).length
    rw [ih, setCol_rowlen]

theorem writeChain_getD_out (j : ℕ) :
    ∀ (c : List (Seg ℤ)) (p q : ℤ) (H : List (List ℤ)) (i : ℕ),
      covFromB p q c = true → ¬(p ≤ (i : ℤ) ∧ (i : ℤ) < q) →
      (writeChain c j H).getD i [] = H.getD i [] := by
  intro c
  induction c with
  | nil => intro p q H i _ _; rfl
  | cons u rest ih =>
    intro p q H i hc hcond
    simp only [covFromB, Bool.and_eq_true, beq_iff_eq, decide_eq_true_eq] at hc
    obtain ⟨⟨hus, hul⟩, hrest⟩ := hc
    have hq := (covFromB_le rest hrest).1
    show (writeChain rest j (setCol u.start u.stop j u.value 0 H)).getD i []
      = H.getD i []
    rw [ih u.stop q _ i hrest (by omega)]
    exact setCol_getD_out u.start u.stop j u.value H 0 i (by
      simp only [zero_add]
      omega)

theorem evalCh_cons (u : Seg ℤ) (rest : List (Seg ℤ)) (i : ℤ) :
    evalCh (u :: rest) i =
      if u.start ≤ i ∧ i < u.stop then u.value else evalCh rest i := by
  by_cases h : u.start ≤ i ∧ i < u.stop
  · rw [if_pos h]
    unfold evalCh
    rw [List.find?_cons_of_pos _ (by simp [h.1, h.2])]
  · rw [if_neg h]
    unfold evalCh
    rw [List.find?_cons_of_neg _ (by simpa using h)]

theorem writeChain_ent_in (j : ℕ) :
    ∀ (c : List (Seg ℤ)) (p q : ℤ) (H : List (List ℤ)) (i : ℕ),
      covFromB p q c = true → i < H.length → j < (H.getD i []).length →
      p ≤ (i : ℤ) → (i : ℤ) < q →
      ent (writeChain c j H) i j = evalCh c (i : ℤ) := by
  intro c
  induction c with
  | nil =>
    intro p q H i hc _ _ h1 h2
    simp only [covFromB, beq_iff_eq] at hc
    omega
  | cons u rest ih =>
    intro p q H i hc hiH hjr h1 h2
    simp only [covFromB, Bool.and_eq_true, beq_iff_eq, decide_eq_true_eq] at hc
    obtain ⟨⟨hus, hul⟩, hrest⟩ := hc
    rw [evalCh_cons]
    show ent (writeChain rest j (setCol u.start u.stop j u.value 0 H)) i j = _
    by_cases hin : (i : ℤ) < u.stop
    · rw [if_pos ⟨by omega, hin⟩]
      unfold ent
      rw [writeChain_getD_out j rest u.stop q _ i hrest (by omega)]
      rw [setCol_getD_in u.start u.stop j u.value H 0 i hiH (by omega) (by omega)]
      exact getD_set_self hjr
    · rw [if_neg (by omega)]
      have hsc : (setCol u.start u.stop j u.value 0 H).getD i [] = H.getD i [] :=
        setCol_getD_out u.start u.stop j u.value H 0 i (by
          simp only [zero_add]
          omega)
      exact ih u.stop q _ i hrest
        (by rw [setCol_length]; exact hiH)
        (by rw [hsc]; exact hjr)
        (by omega) h2

theorem writeChain_ent_ne {j j' : ℕ} (hne : j' ≠ j) :
    ∀ (c : List (Seg ℤ)) (H : List (List ℤ)) (i : ℕ),
      ent (writeChain c j H) i j' = ent H i j' := by
  intro c
  induction c with
  | nil => intro H i; rfl
  | cons u rest ih =>
    intro H i
    show ent (writeChain rest j (setCol u.start u.stop j u.value 0 H)) i j' = _
    rw [ih]
    unfold ent
    by_cases hcond : u.start ≤ (0 : ℤ) + (i : ℤ) ∧ (0 : ℤ) + (i : ℤ) < u.stop
    · by_cases hiH : i < H.length
      · rw [setCol_getD_in u.start u.stop j u.value H 0 i hiH
          (by push_cast at hcond ⊢; omega) (by push_cast at hcond ⊢; omega)]
        exact getD_set_ne hne.symm
      · have h1 : (setCol u.start u.stop j u.value 0 H).getD i [] = [] := by
          rw [List.getD_eq_getElem?_getD, List.getElem?_eq_none
            (by rw [setCol_length]; omega)]
          rfl
        have h2 : H.getD i [] = [] := by
          rw [List.getD_eq_getElem?_getD, List.getElem?_eq_none (by omega)]
          rfl
        rw [h1, h2]
    · rw [setCol_getD_out u.start u.stop j u.value H 0 i hcond]

theorem decodeFold_ent :
    ∀ (cs : List (List (Seg ℤ))) (j0 : ℕ) (H : List (List ℤ)) (n : ℤ),
    (∀ c ∈ cs, covFromB 0 n c = true) →
    ((cs.enumFrom j0).foldl (fun H' jc => writeChain jc.2 jc.1 H') H).length
      = H.length ∧
    (∀ i : ℕ,
      (((cs.enumFrom j0).foldl (fun H' jc => writeChain jc.2 jc.1 H') H).getD i
        []).length = (H.getD i []).length) ∧
    (∀ (i d : ℕ), i < H.length → d < cs.length →
      j0 + d < (H.getD i []).length → 0 ≤ (i : ℤ) → (i : ℤ) < n →
      ent ((cs.enumFrom j0).foldl (fun H' jc => writeChain jc.2 jc.1 H') H) i
        (j0 + d) = evalCh (cs.getD d []) (i : ℤ)) ∧
    (∀ (i j' : ℕ), (j' < j0 ∨ j0 + cs.length ≤ j') →
      ent ((cs.enumFrom j0).foldl (fun H' jc => writeChain jc.2 jc.1 H') H) i j'
        = ent H i j') := by
  intro cs
  induction cs with
  | nil =>
    intro j0 H n _
    exact ⟨rfl, fun i => rfl, fun i d _ hd => by simp at hd, fun i j' _ => rfl⟩
  | cons c cs' ih =>
    intro j0 H n hcov
    have hstep : (((c :: cs').enumFrom j0).foldl
        (fun H' jc => writeChain jc.2 jc.1 H') H) =
        ((cs'.enumFrom (j0 + 1)).foldl (fun H' jc => writeChain jc.2 jc.1 H')
          (writeChain c j0 H)) := by
      rw [List.enumFrom_cons, List.foldl_cons]
    obtain ⟨ihlen, ihrow, ihin, ihout⟩ := ih (j0 + 1) (writeChain c j0 H) n
      (fun c' hc' => hcov c' (by simp [hc']))
    refine ⟨?_, ?_, ?_, ?_⟩
    · rw [hstep, ihlen, writeChain_length]
    · intro i
      rw [hstep, ihrow, writeChain_rowlen]
    · intro i d hiH hd hjr hi0 hin
      rw [hstep]
      cases d with
      | zero =>
        rw [ihout i (j0 + 0) (Or.inl (by omega))]
        simp only [Nat.add_zero, List.getD_cons_zero]
        exact writeChain_ent_in j0 c 0 n H i (hcov c (by simp)) hiH
          (by simpa using hjr) hi0 hin
      | succ d' =>
        have := ihin i d' (by rw [writeChain_length]; exact hiH)
          (by simp at hd; omega)
          (by rw [writeChain_rowlen]
              have harr0 : (j0 + 1) + d' = j0 + (d' + 1) := by omega
              rw [harr0]
              exact hjr) hi0 hin
        have harr : j0 + (d' + 1) = (j0 + 1) + d' := by omega
        rw [harr, this]
        simp
    · intro i j' hj'
      have hne : j' ≠ j0 := by
        rcases hj' with hcase | hcase
        · omega
        · simp only [List.length_cons] at hcase
          omega
      rw [hstep, ihout i j' (by
        rcases hj' with hcase | hcase
        · exact Or.inl (by omega)
        · refine Or.inr ?_
          simp only [List.length_cons] at hcase ⊢
          omega)]
      exact writeChain_ent_ne hne c H i

theorem decode_spec (s : AncestorMatcher) (hwf : wfM s = true) :
    ∃ H, decode_ancestors s = some H ∧ H.length = s.num_ancestors ∧
      (∀ row ∈ H, row.length = s.num_sites) ∧
      ∀ i j : ℕ, i < s.num_ancestors → j < s.num_sites →
        ent H i j = evalCh (s.sites.getD j []) (i : ℤ) := by
  unfold wfM at hwf
  simp only [Bool.and_eq_true, beq_iff_eq, decide_eq_true_eq,
    List.all_eq_true] at hwf
  obtain ⟨⟨hslen, hn⟩, hch⟩ := hwf
  have hguard : s.sites.all
      (fun c => chainCover 0 (s.num_ancestors : ℤ) c) = true := by
    rw [List.all_eq_true]
    intro c hc
    refine covFromB_chainCover c (hch c hc) ?_
    intro hnil
    subst hnil
    have := hch ([] : List (Seg ℤ)) hc
    simp only [covFromB, beq_iff_eq] at this
    omega
  obtain ⟨flen, frow, fin, -⟩ := decodeFold_ent s.sites 0
    (List.replicate s.num_ancestors (List.replicate s.num_sites (-1 : ℤ)))
    (s.num_ancestors : ℤ) (fun c hc => hch c hc)
  refine ⟨_, by unfold decode_ancestors; rw [if_pos hguard], ?_, ?_, ?_⟩
  · rw [flen, List.length_replicate]
  · intro row hrow
    obtain ⟨i, hilt, hi⟩ := List.mem_iff_getElem.mp hrow
    have h1 : row = ((s.sites.enumFrom 0).foldl (fun H jc => writeChain jc.2 jc.1 H)
        (List.replicate s.num_ancestors (List.replicate s.num_sites
          (-1 : ℤ)))).getD i [] := by
      rw [List.getD_eq_getElem?_getD, List.getElem?_eq_getElem hilt, hi]
      rfl
    rw [h1, frow i]
    have hi' : i < s.num_ancestors := by
      rw [flen, List.length_replicate] at hilt
      exact hilt
    rw [List.getD_eq_getElem?_getD, List.getElem?_replicate_of_lt hi']
    simp
  · intro i j hi hj
    have := fin i j (by simp [hi])
      (by omega)
      (by simp only [zero_add]
          rw [List.getD_eq_getElem?_getD, List.getElem?_replicate_of_lt hi]
          simpa using hj)
      (by positivity) (by exact_mod_cast hi)
    simpa using this

/-- C5 -- for haplotypes `h_1..h_k` of length `m` over `{0,1}`,
`decode_ancestors` after `add(h_1), ..., add(h_k)` on a fresh matcher
returns the `(k+1) x m` matrix whose row 0 is all zeros (the implicit
ancestor) and whose row `i` equals `h_i`. -/
theorem C5_round_trip (m k : ℕ) (hs : List (List ℤ)) (s' : AncestorMatcher)
    (hk : hs.length = k) (hlen : ∀ h ∈ hs, h.length = m)
    (hdom : ∀ h ∈ hs, ∀ v ∈ h, v = 0 ∨ v = 1)
    (hadd : addAll (AncestorMatcher.init m) hs = .ok s') :
    ∃ H, decode_ancestors s' = some H ∧ H.length = k + 1 ∧
      (∀ row ∈ H, row.length = m) ∧
      (∀ j < m, ent H 0 j = 0) ∧
      (∀ i < k, ∀ j < m, ent H (i + 1) j = (hs.getD i []).getD j 0) := by
  obtain ⟨hwf', hns', hna', heval⟩ := addAll_inv hs (AncestorMatcher.init m) s'
    (init_wf m) (fun h hh => hlen h hh) hadd
  obtain ⟨H, hdec, hHlen, hrow, hent⟩ := decode_spec s' hwf'
  have hinitn : (AncestorMatcher.init m).num_ancestors = 1 := rfl
  have hinitm : (AncestorMatcher.init m).num_sites = m := rfl
  have hinitch : ∀ j < m, (AncestorMatcher.init m).sites.getD j [] =
      [⟨0, 1, 0⟩] := by
    intro j hj
    show (List.replicate m [(⟨0, 1, 0⟩ : Seg ℤ)]).getD j [] = _
    rw [List.getD_eq_getElem?_getD, List.getElem?_replicate_of_lt hj]
    rfl
  refine ⟨H, hdec, ?_, ?_, ?_, ?_⟩
  · rw [hHlen, hna', hinitn, hk]
    omega
  · intro row hr
    rw [hrow row hr, hns', hinitm]
  · intro j hj
    rw [hent 0 j (by rw [hna']; omega) (by rw [hns', hinitm]; exact hj)]
    simp only [Nat.cast_zero]
    rw [(heval j (by rw [hinitm]; exact hj)).1 0 le_rfl
      (by rw [hinitn]; norm_num)]
    rw [hinitch j hj]
    rfl
  · intro i hi j hj
    rw [hent (i + 1) j (by omega) (by rw [hns', hinitm]; exact hj)]
    have h2 := (heval j (by rw [hinitm]; exact hj)).2 i (by omega)
    rw [hinitn] at h2
    have hcast : ((i + 1 : ℕ) : ℤ) = ((1 : ℕ) : ℤ) + (i : ℕ) := by
      push_cast
      ring
    rw [hcast]
    exact h2

theorem C5_witness :
    ent [[0], [1]] 0 0 = 0 ∧ ent [[0], [1]] 1 0 = 1 := by
  obtain ⟨H, hdec, hHlen, hrow, h0, h1⟩ := C5_round_trip 1 1 [[1]]
    ⟨1, 2, [[⟨0, 1, 0⟩, ⟨1, 2, 1⟩]]⟩ rfl (by decide) (by decide) (by rfl)
  have hH : H = [[0], [1]] := Option.some_inj.mp (by rw [← hdec]; rfl)
  subst hH
  refine ⟨h0 0 (by decide), ?_⟩
  have := h1 0 (by decide) 0 (by decide)
  simpa using this

/-- Python `set.add` on a four-gamete pattern set. -/
def insertPat (p : ℤ × ℤ) (l : List (ℤ × ℤ)) : List (ℤ × ℤ) :=
  if p ∈ l then l else l ++ [p]

/-- One direction of the outward consensus walk of `AncestorBuilder.build`
(source lines 105-123 and 126-144): visits `sitesToGo` in order while
consistent samples remain; `M` is the mutation-masked restricted matrix
and `Pm` the matrix whose row `k` supplies the sample allele recorded in
the four-gamete pattern pairs. -/
def walkSites (M Pm : List (List ℤ)) :
    List ℕ → List (ℕ × List (ℤ × ℤ)) → List ℤ → List ℤ
  | [], _, A => A
  | l :: rest, cs, A =>
    if cs.length = 0 then A
    else
      let sv := (cs.map (fun kp => (M.getD kp.1 []).getD l 0)).sum
      let a : ℤ := if 2 * sv ≥ (cs.length : ℤ) then 1 else 0
      let cs' := (cs.map (fun kp =>
          (kp.1, insertPat (a, (Pm.getD kp.1 []).getD l 0) kp.2))).filter
        (fun kp => kp.2.length ≠ 4)
      walkSites M Pm rest cs' (A.set l a)

/-- State of `AncestorBuilder` (source lines 62-76). -/
structure AncestorBuilder where
  num_samples : ℕ
  num_sites : ℕ
  sample_matrix : List (List ℤ)
  frequency : List ℤ
  num_ancestors : ℕ
  site_order : List ℕ
  site_mask : List ℤ
deriving DecidableEq, Repr

/-- Stable insertion into an index list ordered by the lexicographic key
`(key value, index)` ascending. -/
def insOrd (key : ℕ → ℤ) (i : ℕ) : List ℕ → List ℕ
  | [] => [i]
  | j :: rest =>
    if key i < key j ∨ (key i = key j ∧ i < j) then i :: j :: rest
    else j :: insOrd key i rest

/-- `argsort(kind="mergesort")`: a stable ascending argsort equals the
(unique) sort of indices by the lexicographic key `(value, index)`. -/
def argsortAsc (key : ℕ → ℤ) (l : List ℕ) : List ℕ := l.foldr (insOrd key) []

/-- `AncestorBuilder.__init__` (source lines 67-76): per-site derived
frequencies, count of non-singleton sites, and the descending stable site
order `argsort(kind="mergesort")[::-1]`. -/
def AncestorBuilder.init (num_samples num_sites : ℕ)
    (Sm : List (List ℤ)) : AncestorBuilder :=
  let freq := (List.range num_sites).map
    (fun j => (Sm.map (fun row => row.getD j 0)).sum)
  { num_samples := num_samples
    num_sites := num_sites
    sample_matrix := Sm
    frequency := freq
    num_ancestors := (freq.filter (fun f => 1 < f)).length
    site_order :=
      (argsortAsc (fun j => freq.getD j 0) (List.range num_sites)).reverse
    site_mask := List.replicate num_sites 0 }

/-- `AncestorBuilder.build` (source lines 90-145).  The four-gamete
pattern pairs record `S[k, l]` where `S` is the full sample matrix and
`k` a row index of the restricted matrix `R`, exactly as the source's
lines 118 and 139 do. -/
def AncestorBuilder.build (b : AncestorBuilder) (site_index : ℕ) :
    AncestorBuilder × List ℤ :=
  let site := b.site_order.getD site_index 0
  let mask := b.site_mask.set site 1
  let S := b.sample_matrix
  let R := S.filter (fun row => row.getD site 0 = 1)
  let M := R.map (fun row => List.zipWith
    (fun x mb => if x ≠ 0 ∧ mb ≠ 0 then (1 : ℤ) else 0) row mask)
  let A0 := (List.replicate b.num_sites (-1 : ℤ)).set site 1
  let cs0 := (List.range R.length).map (fun k => (k, [((1 : ℤ), (1 : ℤ))]))
  let A1 := walkSites M S ((List.range site).reverse) cs0 A0
  let A2 := walkSites M S (List.range' (site + 1) (b.num_sites - (site + 1)))
    cs0 A1
  ({ b with site_mask := mask }, A2)

/-- The builder step as the spec describes it: identical to
`AncestorBuilder.build` except that each four-gamete pattern pair records
the sample's own allele, i.e. the corresponding row of the restricted
matrix `R`, instead of row `k` of the full sample matrix. -/
def AncestorBuilder.buildPairsFromR (b : AncestorBuilder) (site_index : ℕ) :
    AncestorBuilder × List ℤ :=
  let site := b.site_order.getD site_index 0
  let mask := b.site_mask.set site 1
  let S := b.sample_matrix
  let R := S.filter (fun row => row.getD site 0 = 1)
  let M := R.map (fun row => List.zipWith
    (fun x mb => if x ≠ 0 ∧ mb ≠ 0 then (1 : ℤ) else 0) row mask)
  let A0 := (List.replicate b.num_sites (-1 : ℤ)).set site 1
  let cs0 := (List.range R.length).map (fun k => (k, [((1 : ℤ), (1 : ℤ))]))
  let A1 := walkSites M R ((List.range site).reverse) cs0 A0
  let A2 := walkSites M R (List.range' (site + 1) (b.num_sites - (site + 1)))
    cs0 A1
  ({ b with site_mask := mask }, A2)

/-- C2 (code bug) -- on this 4-sample x 6-site matrix, the first build
(focal site 3) is followed by a second build (focal site 0) whose
restricted matrix `R` consists of sample rows 2 and 3; the code records
four-gamete pairs from rows 0 and 1 of the full matrix (`S[k, l]` with
`k` an `R` row index), wrongly drops both consistent samples after
walking site 3, stops the walk, and returns `[1,0,0,1,-1,-1]`; with the
pairs taken from the samples' own rows (`R[k, l]`, the claim's reading,
and the one the code's own `{(1, 1)}` initialisation presumes) no sample
is dropped and the result is `[1,0,0,1,0,0]`. -/
theorem C2_four_gamete_indexing :
    (((AncestorBuilder.init 4 6
        [[0,0,1,0,0,0],[0,1,0,0,0,0],[1,0,0,1,0,0],[1,0,0,1,0,0]]).build 0).1.build
        1).2 = [1, 0, 0, 1, -1, -1] ∧
    (((AncestorBuilder.init 4 6
        [[0,0,1,0,0,0],[0,1,0,0,0,0],[1,0,0,1,0,0],
          [1,0,0,1,0,0]]).buildPairsFromR 0).1.buildPairsFromR 1).2 =
      [1, 0, 0, 1, 0, 0] ∧
    ([1, 0, 0, 1, -1, -1] : List ℤ) ≠ [1, 0, 0, 1, 0, 0] := by
  refine ⟨by rfl, by rfl, by decide⟩

theorem segIntF_fuel_irrel :
    ∀ (fuel₁ fuel₂ : ℕ) (A : List (Seg α)) (B : List (Seg β)),
    A.length + B.length ≤ fuel₁ → A.length + B.length ≤ fuel₂ →
    segIntF fuel₁ A B = segIntF fuel₂ A B := by
  intro fuel₁
  induction fuel₁ with
  | zero =>
    intro fuel₂ A B h1 _
    have hA : A = [] := by
      cases A with
      | nil => rfl
      | cons a l => simp at h1
    have hB : B = [] := by
      cases B with
      | nil => rfl
      | cons b l => subst hA; simp at h1
    subst hA; subst hB
    rw [segIntF_nil_left, segIntF_nil_left]
  | succ f₁ ih =>
    intro fuel₂ A B h1 h2
    rcases A with _ | ⟨a, A'⟩
    · rw [segIntF_nil_left, segIntF_nil_left]
    · rcases B with _ | ⟨b, B'⟩
      · rw [segIntF_nil_right, segIntF_nil_right]
      · rcases fuel₂ with _ | f₂
        · simp at h2
        · simp only [segIntF]
          congr 1
          by_cases hc1 : a.stop ≤ b.stop
          · by_cases hc2 : b.stop ≤ a.stop
            · rw [if_pos hc1, if_pos hc2, if_pos hc1, if_pos hc2]
              exact ih f₂ A' B' (by simp at h1 ⊢; omega) (by simp at h2 ⊢; omega)
            · rw [if_pos hc1, if_neg hc2, if_pos hc1, if_neg hc2]
              exact ih f₂ A' (b :: B') (by simp at h1 ⊢; omega)
                (by simp at h2 ⊢; omega)
          · rw [if_neg hc1, if_neg hc1]
            exact ih f₂ (a :: A') B' (by simp at h1 ⊢; omega)
              (by simp at h2 ⊢; omega)

theorem pushCoal_coveredBy [DecidableEq α] (c : List (Seg α)) (s e : ℤ) (v : α)
    (hse : s ≤ e)
    (hlast : ∀ t, c.getLast? = some t → t.start < t.stop ∧ t.stop ≤ s) :
    ∀ pos : ℤ, (∃ u ∈ pushCoal c s e v, u.start ≤ pos ∧ pos < u.stop) ↔
      ((∃ u ∈ c, u.start ≤ pos ∧ pos < u.stop) ∨ (s ≤ pos ∧ pos < e)) := by
  intro pos
  unfold pushCoal
  rcases hl : c.getLast? with _ | t
  · have : c = [] := List.getLast?_eq_none_iff.mp hl
    subst this
    simp
  · obtain ⟨htlt, hts⟩ := hlast t hl
    have hce : c = c.dropLast ++ [t] := by
      obtain ⟨hne', heq⟩ := List.mem_getLast?_eq_getLast (l := c) (x := t)
        (by simp [Option.mem_def, hl])
      rw [heq]
      exact (List.dropLast_append_getLast hne').symm
    show (∃ u ∈ (if t.stop = s ∧ t.value = v then c.dropLast ++ [⟨t.start, e, v⟩]
        else c ++ [⟨s, e, v⟩]), u.start ≤ pos ∧ pos < u.stop) ↔ _
    by_cases hv : t.stop = s ∧ t.value = v
    · rw [if_pos hv]
      constructor
      · rintro ⟨u, hu, h1, h2⟩
        rcases List.mem_append.mp hu with hu' | hu'
        · exact Or.inl ⟨u, by rw [hce]; exact List.mem_append.mpr (Or.inl hu'),
            h1, h2⟩
        · simp only [List.mem_singleton] at hu'
          rw [hu'] at h1 h2
          simp only at h1 h2
          by_cases hps : pos < s
          · refine Or.inl ⟨t, by rw [hce]; simp, h1, ?_⟩
            omega
          · exact Or.inr ⟨by omega, h2⟩
      · rintro (⟨u, hu, h1, h2⟩ | ⟨h1, h2⟩)
        · rw [hce] at hu
          rcases List.mem_append.mp hu with hu' | hu'
          · exact ⟨u, List.mem_append.mpr (Or.inl hu'), h1, h2⟩
          · simp only [List.mem_singleton] at hu'
            rw [hu'] at h1 h2
            refine ⟨⟨t.start, e, v⟩, List.mem_append.mpr (Or.inr (by simp)),
              by simpa using h1, ?_⟩
            show pos < e
            omega
        · refine ⟨⟨t.start, e, v⟩, List.mem_append.mpr (Or.inr (by simp)), ?_, h2⟩
          show t.start ≤ pos
          omega
    · rw [if_neg hv]
      constructor
      · rintro ⟨u, hu, h1, h2⟩
        rcases List.mem_append.mp hu with hu' | hu'
        · exact Or.inl ⟨u, hu', h1, h2⟩
        · simp only [List.mem_singleton] at hu'
          rw [hu'] at h1 h2
          exact Or.inr ⟨by simpa using h1, by simpa using h2⟩
      · rintro (⟨u, hu, h1, h2⟩ | ⟨h1, h2⟩)
        · exact ⟨u, List.mem_append.mpr (Or.inl hu), h1, h2⟩
        · exact ⟨⟨s, e, v⟩, List.mem_append.mpr (Or.inr (by simp)), h1, h2⟩

theorem pushCoal_chain [DecidableEq α] (c : List (Seg α)) (s e : ℤ) (v : α)
    (hse : s < e)
    (hvals : ∀ u ∈ c, u.value = v)
    (hbounds : ∀ u ∈ c, u.start < u.stop ∧ u.stop ≤ s)
    (hch : List.Chain' (fun a b => a.stop < b.start) c) :
    (∀ u ∈ pushCoal c s e v, u.value = v) ∧
    (∀ u ∈ pushCoal c s e v, u.start < u.stop ∧ u.stop ≤ e) ∧
    List.Chain' (fun a b => a.stop < b.start) (pushCoal c s e v) := by
  rcases hl : c.getLast? with _ | t
  · have hnil : c = [] := List.getLast?_eq_none_iff.mp hl
    have hpe : pushCoal c s e v = [⟨s, e, v⟩] := by
      unfold pushCoal
      rw [hl]
    rw [hpe]
    refine ⟨?_, ?_, ?_⟩ <;> simp [hse, le_refl]
  · have htmem : t ∈ c := by
      obtain ⟨hne', heq⟩ := List.mem_getLast?_eq_getLast (l := c) (x := t)
        (by simp [Option.mem_def, hl])
      rw [heq]
      exact List.getLast_mem hne'
    have hce : c = c.dropLast ++ [t] := by
      obtain ⟨hne', heq⟩ := List.mem_getLast?_eq_getLast (l := c) (x := t)
        (by simp [Option.mem_def, hl])
      rw [heq]
      exact (List.dropLast_append_getLast hne').symm
    obtain ⟨htlt, hts⟩ := hbounds t htmem
    have hpe : pushCoal c s e v = (if t.stop = s ∧ t.value = v then
        c.dropLast ++ [⟨t.start, e, v⟩] else c ++ [⟨s, e, v⟩]) := by
      unfold pushCoal
      rw [hl]
    rw [hpe]
    by_cases hv : t.stop = s ∧ t.value = v
    · rw [if_pos hv]
      have hchsplit : List.Chain' (fun a b => a.stop < b.start)
          (c.dropLast ++ [t]) := by rw [← hce]; exact hch
      rw [List.chain'_append] at hchsplit
      refine ⟨?_, ?_, ?_⟩
      · intro u hu
        rcases List.mem_append.mp hu with hu' | hu'
        · exact hvals u (by rw [hce]; exact List.mem_append.mpr (Or.inl hu'))
        · simp only [List.mem_singleton] at hu'
          rw [hu']
      · intro u hu
        rcases List.mem_append.mp hu with hu' | hu'
        · have := hbounds u (by rw [hce]; exact List.mem_append.mpr (Or.inl hu'))
          exact ⟨this.1, by omega⟩
        · simp only [List.mem_singleton] at hu'
          rw [hu']
          exact ⟨by show t.start < e; omega, le_rfl⟩
      · rw [List.chain'_append]
        refine ⟨hchsplit.1, List.chain'_singleton _, ?_⟩
        intro x hx y hy
        simp only [List.head?_cons, Option.mem_def, Option.some.injEq] at hy
        subst hy
        show x.stop < t.start
        exact hchsplit.2.2 x hx t (by simp)
    · rw [if_neg hv]
      have htv : t.value = v := hvals t htmem
      have hlt : t.stop < s := by
        rcases lt_or_eq_of_le hts with h | h
        · exact h
        · exact absurd ⟨h, htv⟩ hv
      refine ⟨?_, ?_, ?_⟩
      · intro u hu
        rcases List.mem_append.mp hu with hu' | hu'
        · exact hvals u hu'
        · simp only [List.mem_singleton] at hu'
          rw [hu']
      · intro u hu
        rcases List.mem_append.mp hu with hu' | hu'
        · have := hbounds u hu'
          exact ⟨this.1, by omega⟩
        · simp only [List.mem_singleton] at hu'
          rw [hu']
          exact ⟨hse, le_rfl⟩
      · rw [List.chain'_append]
        refine ⟨hch, List.chain'_singleton _, ?_⟩
        intro x hx y hy
        simp only [List.head?_cons, Option.mem_def, Option.some.injEq] at hy
        subst hy
        show x.stop < s
        rw [hl] at hx
        simp only [Option.mem_def, Option.some.injEq] at hx
        subst hx
        exact hlt

theorem segInt_cons_step {a : Seg α} {A' : List (Seg α)} {b : Seg β}
    {B' : List (Seg β)} (hemA : b.start < a.stop) (hemB : a.start < b.stop) :
    segments_intersection (a :: A') (b :: B') =
      (max a.start b.start, min a.stop b.stop, a.value, b.value) ::
      (if a.stop ≤ b.stop then
        (if b.stop ≤ a.stop then segments_intersection A' B'
         else segments_intersection A' (b :: B'))
       else segments_intersection (a :: A') B') := by
  have hlen : (a :: A').length + (b :: B').length
      = (A'.length + B'.length + 1) + 1 := by
    simp
    omega
  unfold segments_intersection
  rw [hlen]
  have hem : (if a.start ≤ b.start then
      (if b.start < a.stop then
        [(max a.start b.start, min a.stop b.stop, a.value, b.value)] else [])
    else
      (if a.start < b.stop then
        [(max a.start b.start, min a.stop b.stop, a.value, b.value)] else [])) =
      [(max a.start b.start, min a.stop b.stop, a.value, b.value)] := by
    by_cases h : a.start ≤ b.start
    · rw [if_pos h, if_pos hemA]
    · rw [if_neg h, if_pos hemB]
  show (if a.start ≤ b.start then _ else _) ++ _ = _
  rw [hem]
  simp only [List.singleton_append, List.cons.injEq, true_and]
  by_cases hc1 : a.stop ≤ b.stop
  · by_cases hc2 : b.stop ≤ a.stop
    · rw [if_pos hc1, if_pos hc2, if_pos hc1, if_pos hc2]
      exact segIntF_fuel_irrel _ _ A' B' (by simp) le_rfl
    · rw [if_pos hc1, if_neg hc2, if_pos hc1, if_neg hc2]
      exact segIntF_fuel_irrel _ _ A' (b :: B') (by simp; omega) le_rfl
  · rw [if_neg hc1, if_neg hc1]
    exact segIntF_fuel_irrel _ _ (a :: A') B' (by simp; omega) le_rfl

theorem mergeLoopF_T (pr qr pm qm : ℚ) (best hl : ℤ) (n : ℤ) :
    ∀ (fuel : ℕ) (R : List (Seg ℤ)) (V : List (Seg ℚ)) (Tacc : List (Seg ℤ))
      (Vacc : List (Seg ℚ)) (pR pV : ℤ),
    R.length + V.length ≤ fuel →
    covFromB pR n R = true → covFromB pV n V = true →
    (∀ r' R' v' V', R = r' :: R' → V = v' :: V' → pV < r'.stop ∧ pR < v'.stop) →
    (∀ u ∈ Tacc, u.value = best) →
    (∀ u ∈ Tacc, u.start < u.stop ∧ u.stop ≤ max pR pV) →
    List.Chain' (fun a b => a.stop < b.start) Tacc →
    (∀ u ∈ (mergeLoopF pr qr pm qm best hl fuel R V Tacc Vacc).1,
      u.value = best) ∧
    List.Chain' (fun a b => a.stop < b.start)
      (mergeLoopF pr qr pm qm best hl fuel R V Tacc Vacc).1 ∧
    (∀ pos : ℤ,
      (∃ u ∈ (mergeLoopF pr qr pm qm best hl fuel R V Tacc Vacc).1,
        u.start ≤ pos ∧ pos < u.stop) ↔
      ((∃ u ∈ Tacc, u.start ≤ pos ∧ pos < u.stop) ∨
       (∃ t ∈ segments_intersection V R, t.1 ≤ pos ∧ pos < t.2.1 ∧
         pr > t.2.2.1 * qr))) := by
  intro fuel
  induction fuel with
  | zero =>
    intro R V Tacc Vacc pR pV hf hR hV hov hTv hTb hTc
    have hR0 : R = [] := by
      cases R with
      | nil => rfl
      | cons a l => simp at hf
    have hV0 : V = [] := by
      cases V with
      | nil => rfl
      | cons a l => subst hR0; simp at hf
    subst hR0; subst hV0
    refine ⟨hTv, hTc, ?_⟩
    intro pos
    show _ ↔ _ ∨ ∃ t ∈ segments_intersection ([] : List (Seg ℚ)) _, _
    rw [show segments_intersection ([] : List (Seg ℚ)) ([] : List (Seg ℤ))
      = [] from rfl]
    simp [mergeLoopF]
  | succ fuel ih =>
    intro R V Tacc Vacc pR pV hf hR hV hov hTv hTb hTc
    rcases R with _ | ⟨r, R'⟩
    · refine ⟨hTv, hTc, ?_⟩
      intro pos
      have : segments_intersection V ([] : List (Seg ℤ)) = [] := by
        unfold segments_intersection
        exact segIntF_nil_right _ V
      rw [this]
      simp [mergeLoopF]
    · rcases V with _ | ⟨v, V'⟩
      · refine ⟨hTv, hTc, ?_⟩
        intro pos
        have : segments_intersection ([] : List (Seg ℚ)) (r :: R') = [] := by
          unfold segments_intersection
          exact segIntF_nil_left _ _
        rw [this]
        simp [mergeLoopF]
      · obtain ⟨hov1, hov2⟩ := hov r R' v V' rfl rfl
        have hR0 := hR
        have hV0 := hV
        simp only [covFromB, Bool.and_eq_true, beq_iff_eq, decide_eq_true_eq]
          at hR0 hV0
        obtain ⟨⟨hrs, hrlt⟩, hR'⟩ := hR0
        obtain ⟨⟨hvs, hvlt⟩, hV'⟩ := hV0
        have hstart : max v.start r.start = max pR pV := by
          rw [hrs, hvs, max_comm]
        have hse : max v.start r.start < min v.stop r.stop := by
          rcases max_cases v.start r.start with ⟨h1, h2⟩ | ⟨h1, h2⟩ <;>
            rcases min_cases v.stop r.stop with ⟨h3, h4⟩ | ⟨h3, h4⟩ <;> omega
        have hsint : segments_intersection (v :: V') (r :: R') =
            (max v.start r.start, min v.stop r.stop, v.value, r.value) ::
            (if v.stop ≤ r.stop then
              (if r.stop ≤ v.stop then segments_intersection V' R'
               else segments_intersection V' (r :: R'))
             else segments_intersection (v :: V') R') :=
          segInt_cons_step (by omega) (by omega)
        -- accumulator update facts
        have htb : tbPush pr qr best r v Tacc =
            (if v.value * qr ≥ pr then Tacc
             else pushCoal Tacc (max v.start r.start) (min v.stop r.stop) best) :=
          rfl
        have hTv' : ∀ u ∈ tbPush pr qr best r v Tacc, u.value = best := by
          rw [htb]
          by_cases hxy : v.value * qr ≥ pr
          · rw [if_pos hxy]; exact hTv
          · rw [if_neg hxy]
            exact (pushCoal_chain Tacc _ _ best hse hTv
              (by rw [← hstart] at hTb; exact hTb) hTc).1
        have hTb' : ∀ u ∈ tbPush pr qr best r v Tacc,
            u.start < u.stop ∧ u.stop ≤ min v.stop r.stop := by
          rw [htb]
          by_cases hxy : v.value * qr ≥ pr
          · rw [if_pos hxy]
            intro u hu
            have := hTb u hu
            constructor
            · exact this.1
            · have h2 := this.2
              rw [← hstart] at h2
              omega
          · rw [if_neg hxy]
            exact (pushCoal_chain Tacc _ _ best hse hTv
              (by rw [← hstart] at hTb; exact hTb) hTc).2.1
        have hTc' : List.Chain' (fun a b => a.stop < b.start)
            (tbPush pr qr best r v Tacc) := by
          rw [htb]
          by_cases hxy : v.value * qr ≥ pr
          · rw [if_pos hxy]; exact hTc
          · rw [if_neg hxy]
            exact (pushCoal_chain Tacc _ _ best hse hTv
              (by rw [← hstart] at hTb; exact hTb) hTc).2.2
        have hTcov : ∀ pos : ℤ,
            (∃ u ∈ tbPush pr qr best r v Tacc, u.start ≤ pos ∧ pos < u.stop) ↔
            ((∃ u ∈ Tacc, u.start ≤ pos ∧ pos < u.stop) ∨
             (¬(v.value * qr ≥ pr) ∧ max v.start r.start ≤ pos ∧
               pos < min v.stop r.stop)) := by
          intro pos
          rw [htb]
          by_cases hxy : v.value * qr ≥ pr
          · rw [if_pos hxy]
            simp [hxy]
          · rw [if_neg hxy]
            rw [pushCoal_coveredBy Tacc _ _ best (le_of_lt hse)
              (fun t ht => by
                have htm : t ∈ Tacc := by
                  obtain ⟨hne', heq⟩ := List.mem_getLast?_eq_getLast
                    (l := Tacc) (x := t) (by simp [Option.mem_def, ht])
                  rw [heq]
                  exact List.getLast_mem hne'
                have := hTb t htm
                rw [← hstart] at this
                exact ⟨this.1, this.2⟩) pos]
            simp [hxy]
        rcases lt_trichotomy r.stop v.stop with hc | hc | hc
        · -- r.stop < v.stop: advance the R cursor
          have hmrg : mergeLoopF pr qr pm qm best hl (fuel + 1)
              (r :: R') (v :: V') Tacc Vacc =
              mergeLoopF pr qr pm qm best hl fuel R' (v :: V')
                (tbPush pr qr best r v Tacc) (vPush pr qr pm qm hl r v Vacc) := by
            simp only [mergeLoopF, if_neg (show ¬ r.stop = v.stop by omega),
              if_pos hc]
          have hmin : min v.stop r.stop = r.stop := min_eq_right hc.le
          have hIH := ih R' (v :: V') (tbPush pr qr best r v Tacc)
            (vPush pr qr pm qm hl r v Vacc) r.stop pV
            (by simp at hf ⊢; omega) hR' hV
            (by
              intro r'' R'' v'' V'' hR'' hV''
              have hv'' : v'' = v := by
                injection hV'' with h1 h2
                exact h1.symm
              subst hv''
              constructor
              · subst hR''
                simp only [covFromB, Bool.and_eq_true, beq_iff_eq,
                  decide_eq_true_eq] at hR'
                omega
              · exact hc)
            hTv'
            (by
              intro u hu
              have := hTb' u hu
              have hm : max r.stop pV = r.stop := max_eq_left hov1.le
              rw [hm]
              omega)
            hTc'
          refine ⟨by rw [hmrg]; exact hIH.1, ?_, ?_⟩
          · rw [hmrg]
            exact hIH.2.1
          · intro pos
            rw [hmrg, hIH.2.2 pos, hTcov pos, hsint]
            rw [if_neg (show ¬ v.stop ≤ r.stop by omega)]
            simp only [List.mem_cons, exists_eq_or_imp]
            constructor
            · rintro ((h | h) | h)
              · exact Or.inl h
              · exact Or.inr (Or.inl ⟨h.2.1, h.2.2, not_le.mp h.1⟩)
              · exact Or.inr (Or.inr h)
            · rintro (h | h | h)
              · exact Or.inl (Or.inl h)
              · exact Or.inl (Or.inr ⟨not_le.mpr h.2.2, h.1, h.2.1⟩)
              · exact Or.inr h
        · -- r.stop = v.stop: advance both cursors
          have hmrg : mergeLoopF pr qr pm qm best hl (fuel + 1)
              (r :: R') (v :: V') Tacc Vacc =
              mergeLoopF pr qr pm qm best hl fuel R' V'
                (tbPush pr qr best r v Tacc) (vPush pr qr pm qm hl r v Vacc) := by
            simp only [mergeLoopF, if_pos hc]
          have hmin : min v.stop r.stop = r.stop := by omega
          have hIH := ih R' V' (tbPush pr qr best r v Tacc)
            (vPush pr qr pm qm hl r v Vacc) r.stop v.stop
            (by simp at hf ⊢; omega) hR' hV'
            (by
              intro r'' R'' v'' V'' hR'' hV''
              constructor
              · subst hR''
                simp only [covFromB, Bool.and_eq_true, beq_iff_eq,
                  decide_eq_true_eq] at hR'
                omega
              · subst hV''
                simp only [covFromB, Bool.and_eq_true, beq_iff_eq,
                  decide_eq_true_eq] at hV'
                omega)
            hTv'
            (by
              intro u hu
              have := hTb' u hu
              have hm : max r.stop v.stop = r.stop := by
                rw [hc, max_self]
              rw [hm]
              omega)
            hTc'
          refine ⟨by rw [hmrg]; exact hIH.1, ?_, ?_⟩
          · rw [hmrg]
            exact hIH.2.1
          · intro pos
            rw [hmrg, hIH.2.2 pos, hTcov pos, hsint]
            rw [if_pos (show v.stop ≤ r.stop by omega),
              if_pos (show r.stop ≤ v.stop by omega)]
            simp only [List.mem_cons, exists_eq_or_imp]
            constructor
            · rintro ((h | h) | h)
              · exact Or.inl h
              · exact Or.inr (Or.inl ⟨h.2.1, h.2.2, not_le.mp h.1⟩)
              · exact Or.inr (Or.inr h)
            · rintro (h | h | h)
              · exact Or.inl (Or.inl h)
              · exact Or.inl (Or.inr ⟨not_le.mpr h.2.2, h.1, h.2.1⟩)
              · exact Or.inr h
        · -- v.stop < r.stop: advance the V cursor
          have hmrg : mergeLoopF pr qr pm qm best hl (fuel + 1)
              (r :: R') (v :: V') Tacc Vacc =
              mergeLoopF pr qr pm qm best hl fuel (r :: R') V'
                (tbPush pr qr best r v Tacc) (vPush pr qr pm qm hl r v Vacc) := by
            simp only [mergeLoopF, if_neg (show ¬ r.stop = v.stop by omega),
              if_neg (show ¬ r.stop < v.stop by omega)]
          have hmin : min v.stop r.stop = v.stop := min_eq_left hc.le
          have hIH := ih (r :: R') V' (tbPush pr qr best r v Tacc)
            (vPush pr qr pm qm hl r v Vacc) pR v.stop
            (by simp at hf ⊢; omega) hR hV'
            (by
              intro r'' R'' v'' V'' hR'' hV''
              have hr'' : r'' = r := by
                injection hR'' with h1 h2
                exact h1.symm
              subst hr''
              constructor
              · exact hc
              · subst hV''
                simp only [covFromB, Bool.and_eq_true, beq_iff_eq,
                  decide_eq_true_eq] at hV'
                omega)
            hTv'
            (by
              intro u hu
              have := hTb' u hu
              have hm : max pR v.stop = v.stop := max_eq_right (by omega)
              rw [hm]
              omega)
            hTc'
          refine ⟨by rw [hmrg]; exact hIH.1, ?_, ?_⟩
          · rw [hmrg]
            exact hIH.2.1
          · intro pos
            rw [hmrg, hIH.2.2 pos, hTcov pos, hsint]
            rw [if_pos (show v.stop ≤ r.stop by omega)]
            rw [if_neg (show ¬ r.stop ≤ v.stop by omega)]
            simp only [List.mem_cons, exists_eq_or_imp]
            constructor
            · rintro ((h | h) | h)
              · exact Or.inl h
              · exact Or.inr (Or.inl ⟨h.2.1, h.2.2, not_le.mp h.1⟩)
              · exact Or.inr (Or.inr h)
            · rintro (h | h | h)
              · exact Or.inl (Or.inl h)
              · exact Or.inl (Or.inr ⟨not_le.mpr h.2.2, h.1, h.2.1⟩)
              · exact Or.inr h

theorem scanFold_spec (n : ℤ) :
    ∀ (V : List (Seg ℚ)) (p : ℤ) (m₀ : ℚ) (b₀ : ℤ) (res : ℚ × ℤ),
    covFromB p n V = true →
    V.foldl (fun mb u => if u.value ≥ mb.1 then (u.value, u.stop - 1) else mb)
      (m₀, b₀) = res →
    m₀ ≤ res.1 ∧
    (∀ u ∈ V, u.value ≤ res.1) ∧
    ((res = (m₀, b₀) ∧ ∀ u ∈ V, ¬ u.value ≥ m₀) ∨
     (∃ u ∈ V, u.value = res.1 ∧ res.2 = u.stop - 1 ∧
       ∀ w ∈ V, ∀ q : ℤ, w.start ≤ q → q < w.stop → w.value = res.1 →
         q ≤ res.2)) := by
  intro V
  induction V with
  | nil =>
    intro p m₀ b₀ res hcov hres
    simp only [List.foldl_nil] at hres
    subst hres
    exact ⟨le_refl _, by simp, Or.inl ⟨rfl, by simp⟩⟩
  | cons v V' ih =>
    intro p m₀ b₀ res hcov hres
    simp only [covFromB, Bool.and_eq_true, beq_iff_eq, decide_eq_true_eq]
      at hcov
    obtain ⟨⟨hvs, hvlt⟩, hV'⟩ := hcov
    simp only [List.foldl_cons] at hres
    by_cases hge : v.value ≥ m₀
    · rw [if_pos hge] at hres
      obtain ⟨h1, h2, h3⟩ := ih v.stop v.value (v.stop - 1) res hV' hres
      refine ⟨le_trans hge h1, ?_, ?_⟩
      · intro u hu
        rcases List.mem_cons.mp hu with h | h
        · rw [h]; exact h1
        · exact h2 u h
      · rcases h3 with ⟨hres0, hnone⟩ | ⟨u, hu, hval, hstop, hhigh⟩
        · right
          refine ⟨v, List.mem_cons_self v V', ?_, ?_, ?_⟩
          · rw [hres0]
          · rw [hres0]
          · intro w hw q hq1 hq2 hwv
            rcases List.mem_cons.mp hw with h | h
            · rw [h] at hq2
              rw [hres0]
              simp only
              omega
            · exfalso
              apply hnone w h
              rw [hwv, hres0]
        · right
          refine ⟨u, List.mem_cons_of_mem _ hu, hval, hstop, ?_⟩
          intro w hw q hq1 hq2 hwv
          rcases List.mem_cons.mp hw with h | h
          · have hub := covFromB_mem_bounds V' u hV' hu
            have hul := covFromB_mem_lt V' u hV' hu
            rw [h] at hq2
            rw [hstop]
            omega
          · exact hhigh w h q hq1 hq2 hwv
    · rw [if_neg hge] at hres
      obtain ⟨h1, h2, h3⟩ := ih v.stop m₀ b₀ res hV' hres
      refine ⟨h1, ?_, ?_⟩
      · intro u hu
        rcases List.mem_cons.mp hu with h | h
        · rw [h]
          exact le_of_lt (lt_of_lt_of_le (not_le.mp hge) h1)
        · exact h2 u h
      · rcases h3 with ⟨hres0, hnone⟩ | ⟨u, hu, hval, hstop, hhigh⟩
        · left
          refine ⟨hres0, ?_⟩
          intro u hu
          rcases List.mem_cons.mp hu with h | h
          · rw [h]; exact hge
          · exact hnone u h
        · right
          refine ⟨u, List.mem_cons_of_mem _ hu, hval, hstop, ?_⟩
          intro w hw q hq1 hq2 hwv
          rcases List.mem_cons.mp hw with h | h
          · exfalso
            have hlt := not_le.mp hge
            rw [h] at hwv
            rw [hwv] at hlt
            exact absurd h1 (not_le.mpr hlt)
          · exact hhigh w h q hq1 hq2 hwv

/-- C1 (amended): in each subinterval `[start, end)` of the merge of the
forward chain `V` with the site's library chain `R`, with `x = value * qr`
and `y = pr`, a traceback run `[start, end) → best_haplotype` is recorded
if and only if `y > x` STRICTLY (the code takes the `x >= y` branch without
recording on ties, so the spec's `y ≥ x` rule is wrong exactly at `x = y`);
every recorded run carries the value `best_haplotype`, contiguous
equal-valued runs are coalesced (adjacent recorded runs are separated by a
gap), and `best_haplotype` as produced by the scan of `V` is the highest
ancestor index attaining the maximum of `V`, ties broken toward the larger
index because the scan overwrites on `>=`. -/
theorem C1_traceback_recording (pr qr pm qm : ℚ) (best hl : ℤ) (n : ℤ)
    (R : List (Seg ℤ)) (V : List (Seg ℚ))
    (hR : covFromB 0 n R = true) (hV : covFromB 0 n V = true)
    (hn : 0 < n) (hnn : ∀ u ∈ V, 0 ≤ u.value) :
    ((∀ u ∈ (mergeRuns pr qr pm qm best hl R V).1, u.value = best) ∧
     List.Chain' (fun a b => a.stop < b.start)
       (mergeRuns pr qr pm qm best hl R V).1 ∧
     (∀ pos : ℤ,
       (∃ u ∈ (mergeRuns pr qr pm qm best hl R V).1,
         u.start ≤ pos ∧ pos < u.stop) ↔
       (∃ t ∈ segments_intersection V R, t.1 ≤ pos ∧ pos < t.2.1 ∧
         pr > t.2.2.1 * qr))) ∧
    (∃ u ∈ V, u.value = (scanBest V).1 ∧ (scanBest V).2 = u.stop - 1 ∧
      (∀ w ∈ V, w.value ≤ (scanBest V).1) ∧
      (∀ w ∈ V, ∀ q : ℤ, w.start ≤ q → q < w.stop →
        w.value = (scanBest V).1 → q ≤ (scanBest V).2)) := by
  constructor
  · have h := mergeLoopF_T pr qr pm qm best hl n (R.length + V.length) R V
      [] [] 0 0 (le_refl _) hR hV
      (by
        intro r' R' v' V' hR' hV'
        subst hR'; subst hV'
        simp only [covFromB, Bool.and_eq_true, beq_iff_eq,
          decide_eq_true_eq] at hR hV
        exact ⟨by omega, by omega⟩)
      (by simp) (by simp) (by simp)
    refine ⟨h.1, h.2.1, ?_⟩
    intro pos
    constructor
    · intro hc
      rcases (h.2.2 pos).mp hc with h0 | h0
      · simp at h0
      · exact h0
    · intro hc
      exact (h.2.2 pos).mpr (Or.inr hc)
  · have h := scanFold_spec n V 0 (-1) (-1) (scanBest V) hV rfl
    rcases h.2.2 with ⟨hres0, hnone⟩ | ⟨u, hu, hval, hstop, hhigh⟩
    · exfalso
      cases V with
      | nil =>
        simp only [covFromB, beq_iff_eq] at hV
        omega
      | cons v V' =>
        exact hnone v (List.mem_cons_self v V')
          (le_trans (by norm_num) (hnn v (List.mem_cons_self v V')))
    · exact ⟨u, hu, hval, hstop, h.2.1, hhigh⟩

/-- Counterexample to the claim's `y ≥ x` rule at a tie: with
`pr = 2, qr = 2`, forward value `1` on `[0,1)` gives
`x = 1 * 2 = 2 = pr = y`, so the claim demands a recorded run covering
position 0; the code records nothing (its traceback list is empty),
because it takes the `x >= y` branch on the tie. -/
theorem C1_claim_counterexample :
    (mergeRuns (2:ℚ) 2 1 1 1 1
      [⟨0, 1, (0:ℤ)⟩, ⟨1, 2, 1⟩] [⟨0, 1, (1:ℚ)⟩, ⟨1, 2, 3⟩]).1 = [] ∧
    ((2:ℚ) ≥ (1:ℚ) * 2) ∧
    segments_intersection [⟨0, 1, (1:ℚ)⟩, ⟨1, 2, 3⟩]
      [⟨0, 1, (0:ℤ)⟩, ⟨1, 2, 1⟩]
      = [(0, 1, (1:ℚ), (0:ℤ)), (1, 2, 3, 1)] := by
  refine ⟨by norm_num [mergeRuns, mergeLoopF, tbPush, vPush, fwdVal, pushCoal],
    by norm_num, by decide⟩

theorem C1_witness :
    ((∀ u ∈ (mergeRuns (2:ℚ) 2 1 1 1 1
        [⟨0, 1, (0:ℤ)⟩, ⟨1, 2, 1⟩] [⟨0, 1, (1:ℚ)⟩, ⟨1, 2, 3⟩]).1,
        u.value = 1) ∧
     List.Chain' (fun a b => a.stop < b.start)
       (mergeRuns (2:ℚ) 2 1 1 1 1
        [⟨0, 1, (0:ℤ)⟩, ⟨1, 2, 1⟩] [⟨0, 1, (1:ℚ)⟩, ⟨1, 2, 3⟩]).1 ∧
     (∀ pos : ℤ,
       (∃ u ∈ (mergeRuns (2:ℚ) 2 1 1 1 1
          [⟨0, 1, (0:ℤ)⟩, ⟨1, 2, 1⟩] [⟨0, 1, (1:ℚ)⟩, ⟨1, 2, 3⟩]).1,
         u.start ≤ pos ∧ pos < u.stop) ↔
       (∃ t ∈ segments_intersection [⟨0, 1, (1:ℚ)⟩, ⟨1, 2, 3⟩]
          [⟨0, 1, (0:ℤ)⟩, ⟨1, 2, 1⟩], t.1 ≤ pos ∧ pos < t.2.1 ∧
         (2:ℚ) > t.2.2.1 * 2))) ∧
    (∃ u ∈ ([⟨0, 1, (1:ℚ)⟩, ⟨1, 2, 3⟩] : List (Seg ℚ)),
      u.value = (scanBest [⟨0, 1, (1:ℚ)⟩, ⟨1, 2, 3⟩]).1 ∧
      (scanBest [⟨0, 1, (1:ℚ)⟩, ⟨1, 2, 3⟩]).2 = u.stop - 1 ∧
      (∀ w ∈ ([⟨0, 1, (1:ℚ)⟩, ⟨1, 2, 3⟩] : List (Seg ℚ)),
        w.value ≤ (scanBest [⟨0, 1, (1:ℚ)⟩, ⟨1, 2, 3⟩]).1) ∧
      (∀ w ∈ ([⟨0, 1, (1:ℚ)⟩, ⟨1, 2, 3⟩] : List (Seg ℚ)), ∀ q : ℤ, w.start ≤ q →
        q < w.stop → w.value = (scanBest [⟨0, 1, (1:ℚ)⟩, ⟨1, 2, 3⟩]).1 →
        q ≤ (scanBest [⟨0, 1, (1:ℚ)⟩, ⟨1, 2, 3⟩]).2)) :=
  C1_traceback_recording (2:ℚ) 2 1 1 1 1 2
    [⟨0, 1, (0:ℤ)⟩, ⟨1, 2, 1⟩] [⟨0, 1, (1:ℚ)⟩, ⟨1, 2, 3⟩]
    (by decide) (by decide) (by decide) (by decide)
